import Mathlib

/-!
The CDC-NCM framing codec (`ncm/ncm.go`)

A shallow embedding of `NcmWrapper.Read` and `NcmWrapper.Write` together with the
parts of the Go standard library they call (`encoding/binary`, `bytes.Buffer`,
`io.ReadFull`, `io.CopyN`), followed by theorems about them.

Modelling conventions

* A byte is a `Fin 256`; the `uint16`/`uint32` struct fields are natural numbers and
  every Go operation that can wrap is written with an explicit `% 65536`.
* The inbound `io.Reader` is a script of events (`Reader`): a chunk of bytes that
  one or more `Read` calls consume, or an error returned by one `Read` call.  A
  `Read` never returns more than the head chunk holds, so short reads are
  expressible; an exhausted script answers `io.EOF`.
* The outbound `io.Writer` records every buffer it is handed and answers from a
  script of results.
* A Go run-time panic (slice bounds out of range) is an outcome of its own.
-/

namespace Ncm

/-- One octet. -/
abbrev Byte := Fin 256

/-- Error values that `Read` and `Write` can hand back: the two sentinels of package `io`,
the `fmt.Errorf` values built in `ncm.go`, and any other error of a transport. -/
inductive Err where
  | EOF
  | ErrUnexpectedEOF
  | wrongHeaderSignature
  | wrongDatagramPointerSignature
  | couldNotSkip
  | expectedBytes (expected got : Nat)
  | transport (code : Nat)
  deriving DecidableEq, Repr

/-! ## Wire structures -/

/-- The Go struct `header` (NTH). -/
structure header where
  Signature : Nat
  HeaderLen : Nat
  SequenceNum : Nat
  BlockLen : Nat
  NpdIndex : Nat
  deriving DecidableEq, Repr

/-- The Go struct `datagramPointerHeader` (fixed part of the NDP). -/
structure datagramPointerHeader where
  Signature : Nat
  Length : Nat
  NextNpdIndex : Nat
  deriving DecidableEq, Repr

/-- The Go struct `datagram` (one entry of the pointer table). -/
structure datagram where
  Index : Nat
  Length : Nat
  deriving DecidableEq, Repr

def headerSignature : Nat := 0x484D434E

def datagramPointerHeaderSignature : Nat := 0x304D434E

/-! ## `encoding/binary`, little endian -/

/-- The byte `n mod 256`. -/
def byteOf (n : Nat) : Byte := ⟨n % 256, Nat.mod_lt n (by decide)⟩

/-- Subtraction of two `uint16` values as Go computes it: the difference modulo 65536. -/
def sub16 (a b : Nat) : Nat := (a + 65536 - b) % 65536

/-- `binary.LittleEndian.PutUint16`. -/
def putUint16 (n : Nat) : List Byte := [byteOf n, byteOf (n / 256)]

/-- `binary.LittleEndian.PutUint32`. -/
def putUint32 (n : Nat) : List Byte :=
  [byteOf n, byteOf (n / 256), byteOf (n / 65536), byteOf (n / 16777216)]

/-- `binary.LittleEndian.Uint16` at offset `i` of `bs`. -/
def uint16At (bs : List Byte) (i : Nat) : Nat :=
  (bs.getD i 0).val + 256 * (bs.getD (i + 1) 0).val

/-- `binary.LittleEndian.Uint32` at offset `i` of `bs`. -/
def uint32At (bs : List Byte) (i : Nat) : Nat :=
  (bs.getD i 0).val + 256 * (bs.getD (i + 1) 0).val
    + 65536 * (bs.getD (i + 2) 0).val + 16777216 * (bs.getD (i + 3) 0).val

/-- The bytes `binary.Write(buf, binary.LittleEndian, h)` appends for a `header`. -/
def header.encode (h : header) : List Byte :=
  putUint32 h.Signature ++ putUint16 h.HeaderLen ++ putUint16 h.SequenceNum
    ++ putUint16 h.BlockLen ++ putUint16 h.NpdIndex

/-- The bytes `binary.Write` appends for a `datagramPointerHeader`. -/
def datagramPointerHeader.encode (dh : datagramPointerHeader) : List Byte :=
  putUint32 dh.Signature ++ putUint16 dh.Length ++ putUint16 dh.NextNpdIndex

/-- The bytes `binary.Write` appends for a `datagram`. -/
def datagram.encode (d : datagram) : List Byte :=
  putUint16 d.Index ++ putUint16 d.Length

/-- The struct `binary.Read` fills from the 12 bytes it has read. -/
def header.decode (bs : List Byte) : header :=
  { Signature := uint32At bs 0
    HeaderLen := uint16At bs 4
    SequenceNum := uint16At bs 6
    BlockLen := uint16At bs 8
    NpdIndex := uint16At bs 10 }

/-- The struct `binary.Read` fills from the 8 bytes it has read. -/
def datagramPointerHeader.decode (bs : List Byte) : datagramPointerHeader :=
  { Signature := uint32At bs 0
    Length := uint16At bs 4
    NextNpdIndex := uint16At bs 6 }

/-- The struct `binary.Read` fills from 4 bytes. -/
def datagram.decode (bs : List Byte) : datagram :=
  { Index := uint16At bs 0
    Length := uint16At bs 2 }

/-! ## The outbound transport (`io.Writer`) -/

/-- A scripted `io.Writer`: `log` holds, oldest first, the buffer of every `Write` call made
on it; `script` holds the error result of the coming calls (`none` is `nil`), and once
the script is used up every call succeeds. -/
structure Writer where
  log : List (List Byte)
  script : List (Option Err)
  deriving DecidableEq, Repr

/-- One `Write` call on the transport: the pair `(n, err)` it returns and the writer after. -/
def Writer.Write (w : Writer) (b : List Byte) : (Nat × Option Err) × Writer :=
  match w.script with
  | [] => ((b.length, none), { log := w.log ++ [b], script := [] })
  | none :: rest => ((b.length, none), { log := w.log ++ [b], script := rest })
  | some e :: rest => ((0, some e), { log := w.log ++ [b], script := rest })

/-! ## The inbound transport (`io.Reader`) -/

/-- What the next `Read` calls on the inbound transport meet: bytes that have arrived, or
an error. -/
inductive Event where
  | data (bs : List Byte)
  | fail (e : Err)
  deriving DecidableEq, Repr

/-- A scripted `io.Reader`. -/
abbrev Reader := List Event

/-- One `Read(p)` call with `len(p) = n` on the transport: the bytes stored at the front
of `p`, the error, and the reader after.  It delivers at most the head chunk. -/
def Reader.Read : Reader → Nat → (List Byte × Option Err) × Reader
  | [], _ => (([], some Err.EOF), [])
  | Event.fail e :: rest, _ => (([], some e), rest)
  | Event.data bs :: rest, n =>
    if n < bs.length then ((bs.take n, none), Event.data (bs.drop n) :: rest)
    else ((bs, none), rest)

/-- The loop of `io.ReadAtLeast(r, buf, len(buf))` entered with `got` bytes already stored and
`need > 0` bytes missing: `Read` is called until `need` bytes have arrived or a call
returns an error; an `io.EOF` after at least one byte becomes `io.ErrUnexpectedEOF`. -/
def readLoop : Reader → List Byte → Nat → Except Err (List Byte) × Reader
  | [], got, _ =>
    (Except.error (if got = [] then Err.EOF else Err.ErrUnexpectedEOF), [])
  | Event.fail e :: rest, got, _ =>
    (Except.error (if e = Err.EOF ∧ got ≠ [] then Err.ErrUnexpectedEOF else e), rest)
  | Event.data bs :: rest, got, need =>
    if need < bs.length then (Except.ok (got ++ bs.take need), Event.data (bs.drop need) :: rest)
    else if need = bs.length then (Except.ok (got ++ bs), rest)
    else readLoop rest (got ++ bs) (need - bs.length)

/-- The call `io.ReadFull(r, buf)` with `len(buf) = n`.  For `n = 0` the loop body never
runs and nothing is read. -/
def readFull (r : Reader) (n : Nat) : Except Err (List Byte) × Reader :=
  if n = 0 then (Except.ok [], r) else readLoop r [] n

/-- The loop of `io.CopyN(io.Discard, r, n)` with `need > 0` bytes still to skip and
`got` bytes skipped so far: the number of bytes skipped, the error and the reader after.
A transport `io.EOF` ends the copy without error inside `io.Copy`, and `CopyN` then
reports `io.EOF` because fewer than `n` bytes were written. -/
def discardLoop : Reader → Nat → Nat → (Nat × Option Err) × Reader
  | [], got, _ => ((got, some Err.EOF), [])
  | Event.fail e :: rest, got, _ => ((got, some e), rest)
  | Event.data bs :: rest, got, need =>
    if need < bs.length then ((got + need, none), Event.data (bs.drop need) :: rest)
    else if need = bs.length then ((got + need, none), rest)
    else discardLoop rest (got + bs.length) (need - bs.length)

/-- The call `io.CopyN(io.Discard, r, n)`. -/
def copyNDiscard (r : Reader) (n : Nat) : (Nat × Option Err) × Reader :=
  if n = 0 then ((0, none), r) else discardLoop r 0 n

/-! ## The wrapper -/

/-- The Go struct `NcmWrapper`; `buf` is the content of the `bytes.Buffer` still unread. -/
structure NcmWrapper where
  targetReader : Reader
  targetWriter : Writer
  buf : List Byte
  sequenceNum : Nat
  deriving DecidableEq, Repr

def NewWrapper (targetReader : Reader) (targetWriter : Writer) : NcmWrapper :=
  { targetReader := targetReader
    targetWriter := targetWriter
    buf := []
    sequenceNum := 0 }

/-- The buffer `Write` assembles in `buf` before handing it to the transport. -/
def writeBuffer (sequenceNum : Nat) (p : List Byte) : List Byte :=
  let h : header :=
    { Signature := headerSignature
      HeaderLen := 12
      SequenceNum := sequenceNum
      BlockLen := (p.length + 12 + 8 + 8 + 2) % 65536
      NpdIndex := 12 }
  let dh : datagramPointerHeader :=
    { Signature := datagramPointerHeaderSignature
      Length := 16
      NextNpdIndex := 0 }
  let d : datagram := { Index := 30, Length := p.length % 65536 }
  let d0 : datagram := { Index := 0, Length := 0 }
  h.encode ++ dh.encode ++ d.encode ++ d0.encode ++ [0] ++ [0] ++ p

/-- The method `NcmWrapper.Write`.  The results of `r.targetWriter.Write` are dropped and the
named result `err` is never assigned, so the error returned is always `nil`. -/
def NcmWrapper.Write (r : NcmWrapper) (p : List Byte) : (Nat × Option Err) × NcmWrapper :=
  let buf := writeBuffer r.sequenceNum p
  let w := (r.targetWriter.Write buf).2
  ((p.length, none),
    { r with targetWriter := w, sequenceNum := (r.sequenceNum + 1) % 65536 })

/-- Successive `Write` calls, one per frame of `ps`. -/
def writeAll (r : NcmWrapper) : List (List Byte) → NcmWrapper
  | [] => r
  | p :: ps => writeAll (r.Write p).2 ps

/-- The buffers successive `Write` calls hand to the transport, starting from counter `s`. -/
def seqBuffers (s : Nat) : List (List Byte) → List (List Byte)
  | [] => []
  | p :: ps => writeBuffer s p :: seqBuffers ((s + 1) % 65536) ps

/-- The `header` value `Write` builds for frame `p` with counter `s`. -/
def writeHeader (s : Nat) (p : List Byte) : header :=
  { Signature := headerSignature, HeaderLen := 12, SequenceNum := s,
    BlockLen := (p.length + 12 + 8 + 8 + 2) % 65536, NpdIndex := 12 }

/-- The `datagramPointerHeader` value `Write` builds. -/
def writeDph : datagramPointerHeader :=
  { Signature := datagramPointerHeaderSignature, Length := 16, NextNpdIndex := 0 }

/-- The bytes of the two table entries `d` and `d0` that `Write` emits for frame `p`. -/
def writeTable (p : List Byte) : List Byte :=
  (datagram.mk 30 (p.length % 65536)).encode ++ (datagram.mk 0 0).encode

/-! ## `NcmWrapper.Read` -/

/-- How a call of `Read` ends: it returns `n = data.length` bytes (stored in `p[:n]`) and
an error value (`none` is `nil`), or the goroutine panics. -/
inductive Outcome where
  | ret (data : List Byte) (err : Option Err)
  | panic
  deriving DecidableEq, Repr

/-- The method `(*bytes.Buffer).Read` with `len(p) = k` on a buffer whose unread content is
`b`: the bytes copied and the error, and the unread content after. -/
def bufRead (b : List Byte) (k : Nat) : (List Byte × Option Err) × List Byte :=
  if b = [] then
    if k = 0 then (([], none), []) else (([], some Err.EOF), [])
  else ((b.take k, none), b.drop k)

/-- What lines 61-109 of `Read` have in hand once the payload has been read. -/
structure Block where
  h : header
  dh : datagramPointerHeader
  datagrams : List Byte
  totalHeaderLength : Nat
  payload : List Byte
  deriving DecidableEq, Repr

/-- Lines 61-109 of `Read`: header, datagram pointer header, pointer table, the two skipped
bytes and the payload are read from the transport; the error is the one `Read` returns
(with `n = 0`). -/
def readBlock (t : Reader) : Except Err Block × Reader :=
  match readFull t 12 with
  | (Except.error e, t1) => (Except.error e, t1)
  | (Except.ok hb, t1) =>
    let h := header.decode hb
    if h.Signature ≠ headerSignature then (Except.error Err.wrongHeaderSignature, t1)
    else
      match readFull t1 8 with
      | (Except.error e, t2) => (Except.error e, t2)
      | (Except.ok db, t2) =>
        let dh0 := datagramPointerHeader.decode db
        if dh0.Signature ≠ datagramPointerHeaderSignature then
          (Except.error Err.wrongDatagramPointerSignature, t2)
        else
          let dh : datagramPointerHeader :=
            if dh0.Length = 0x8c then { dh0 with Length := 0x3c } else dh0
          let m := sub16 dh.Length 8
          match t2.Read m with
          | ((_, some e), t3) => (Except.error e, t3)
          | ((got, none), t3) =>
            let datagrams := got ++ List.replicate (m - got.length) (0 : Byte)
            match copyNDiscard t3 2 with
            | ((_, some e), t4) => (Except.error e, t4)
            | ((skipped, none), t4) =>
              if skipped ≠ 2 then (Except.error Err.couldNotSkip, t4)
              else
                let totalHeaderLength := (h.HeaderLen + dh.Length + 2) % 65536
                let payloadLength := sub16 h.BlockLen totalHeaderLength
                match t4.Read payloadLength with
                | ((_, some e), t5) => (Except.error e, t5)
                | ((pl, none), t5) =>
                  if pl.length ≠ payloadLength then
                    (Except.error (Err.expectedBytes payloadLength pl.length), t5)
                  else
                    (Except.ok
                      { h := h, dh := dh, datagrams := datagrams,
                        totalHeaderLength := totalHeaderLength, payload := pl }, t5)

/-- The entries the loop of lines 114-130 decodes, in order: entry `i` is read from bytes
`4 * i .. 4 * i + 3` of `datagrams`, for `i < len(datagrams) / 4`. -/
def datagramTable (datagrams : List Byte) : List datagram :=
  (List.range (datagrams.length / 4)).map fun i => datagram.decode (datagrams.drop (4 * i))

/-- The Go slice expression `payload[low:high]` on a slice whose capacity is its length:
`none` is the run-time panic for `low > high` or `high > cap(payload)`. -/
def sliceExpr (payload : List Byte) (low high : Nat) : Option (List Byte) :=
  if low ≤ high ∧ high ≤ payload.length then some ((payload.take high).drop low) else none

/-- The body of the loop of lines 114-130 run over the remaining entries, `buf` being the
content of `r.buf`: the flag tells whether the slice expression panicked, and the list is
`r.buf` at that point or at the end of the loop. -/
def copyDatagrams (totalHeaderLength : Nat) (payload : List Byte) :
    List datagram → List Byte → Bool × List Byte
  | [], buf => (false, buf)
  | d :: ds, buf =>
    if d.Length = 0 then copyDatagrams totalHeaderLength payload ds buf
    else
      let offset := sub16 d.Index totalHeaderLength
      match sliceExpr payload offset d.Length with
      | none => (true, buf)
      | some s => copyDatagrams totalHeaderLength payload ds (buf ++ s)

/-- The statement `return r.buf.Read(p)` with `len(p) = k`. -/
def serve (r : NcmWrapper) (k : Nat) : Outcome × NcmWrapper :=
  let res := bufRead r.buf k
  (Outcome.ret res.1.1 res.1.2, { r with buf := res.2 })

/-- Lines 111-132 of `Read`, run once block `b` has been read and the transport is `t`: the
loop over the pointer table, then `return r.buf.Read(p)`, unless the loop panicked. -/
def copyAndServe (r : NcmWrapper) (k : Nat) (b : Block) (t : Reader) : Outcome × NcmWrapper :=
  match copyDatagrams b.totalHeaderLength b.payload (datagramTable b.datagrams) r.buf with
  | (true, buf) => (Outcome.panic, { r with targetReader := t, buf := buf })
  | (false, buf) => serve { r with targetReader := t, buf := buf } k

/-- The method `NcmWrapper.Read` called with `len(p) = k`. -/
def NcmWrapper.Read (r : NcmWrapper) (k : Nat) : Outcome × NcmWrapper :=
  if r.buf.length ≥ k then serve r k
  else
    match readBlock r.targetReader with
    | (Except.error e, t) => (Outcome.ret [] (some e), { r with targetReader := t })
    | (Except.ok b, t) => copyAndServe r k b t

/-! ## Stages of `Read`, named for the proofs -/

/-- Lines 79-82 of `Read`: a `dh.Length` of `0x8c` is replaced by `0x3c`. -/
def fixLength (dh0 : datagramPointerHeader) : datagramPointerHeader :=
  if dh0.Length = 0x8c then { dh0 with Length := 0x3c } else dh0

/-- Lines 86-109 of `Read` as a function of the three header fields they use: the pointer
table, the two skipped bytes and the payload are read; the result holds `datagrams`,
`totalHeaderLength` and `payload`. -/
def readTail (headerLen blockLen ndpLength : Nat) (t2 : Reader) :
    Except Err (List Byte × Nat × List Byte) × Reader :=
  let m := sub16 ndpLength 8
  match t2.Read m with
  | ((_, some e), t3) => (Except.error e, t3)
  | ((got, none), t3) =>
    let datagrams := got ++ List.replicate (m - got.length) (0 : Byte)
    match copyNDiscard t3 2 with
    | ((_, some e), t4) => (Except.error e, t4)
    | ((skipped, none), t4) =>
      if skipped ≠ 2 then (Except.error Err.couldNotSkip, t4)
      else
        let totalHeaderLength := (headerLen + ndpLength + 2) % 65536
        let payloadLength := sub16 blockLen totalHeaderLength
        match t4.Read payloadLength with
        | ((_, some e), t5) => (Except.error e, t5)
        | ((pl, none), t5) =>
          if pl.length ≠ payloadLength then
            (Except.error (Err.expectedBytes payloadLength pl.length), t5)
          else (Except.ok (datagrams, totalHeaderLength, pl), t5)

/-- The `Block` made of the two headers and of what `readTail` has read. -/
def mkBlock (h : header) (dh : datagramPointerHeader) :
    Except Err (List Byte × Nat × List Byte) × Reader → Except Err Block × Reader
  | (Except.error e, t) => (Except.error e, t)
  | (Except.ok (datagrams, totalHeaderLength, pl), t) =>
    (Except.ok { h := h, dh := dh, datagrams := datagrams,
                 totalHeaderLength := totalHeaderLength, payload := pl }, t)

/-- Up to `n` successive `Read` calls with a destination of `k` bytes, ended by the first call
that does not succeed (error value or panic): the bytes delivered by the successful calls,
in order, and the wrapper after the last successful call. -/
def readMany (k : Nat) : Nat → NcmWrapper → List Byte × NcmWrapper
  | 0, r => ([], r)
  | n + 1, r =>
    match r.Read k with
    | (Outcome.ret d none, r2) => (d ++ (readMany k n r2).1, (readMany k n r2).2)
    | _ => ([], r)

/-- The invariant of successive reads of two frames `F1`, `F2` from the transport `t0` that
holds both encodings, `w2` being the encoding of `F2`: `D`, the bytes delivered so far,
followed by the queue and by the frames still on the transport, is `F1 ++ F2`. -/
def TwoFrameInv (t0 : Reader) (w2 F1 F2 D : List Byte) (r : NcmWrapper) : Prop :=
  (r.targetReader = t0 ∧ D = [] ∧ r.buf = [])
  ∨ (r.targetReader = [Event.data w2] ∧ D ++ r.buf ++ F2 = F1 ++ F2)
  ∨ (r.targetReader = [] ∧ D ++ r.buf = F1 ++ F2)

/-! ## Two inbound streams that differ in chosen bytes only -/

/-- Two byte sequences whose first bytes stand at position `pos` of a stream agree outside
the stream positions listed in `S`: they have the same length and equal bytes at every
position that is not in `S`. -/
def bytesAgree (S : List Nat) : Nat → List Byte → List Byte → Bool
  | _, [], [] => true
  | pos, x :: xs, y :: ys => (decide (pos ∈ S) || decide (x = y)) && bytesAgree S (pos + 1) xs ys
  | _, _, _ => false

/-- Two scripted transports whose next byte stands at stream position `pos` agree outside the
positions listed in `S`: the same events in the same order, chunks of the same sizes, the
same errors, and equal bytes at every stream position that is not in `S`. -/
def readersAgree (S : List Nat) : Nat → Reader → Reader → Bool
  | _, [], [] => true
  | pos, Event.data a :: ra, Event.data b :: rb =>
    bytesAgree S pos a b && readersAgree S (pos + a.length) ra rb
  | pos, Event.fail e :: ra, Event.fail e2 :: rb => decide (e = e2) && readersAgree S pos ra rb
  | _, _, _ => false

/-- All the bytes a scripted transport still holds, in stream order. -/
def streamBytes : Reader → List Byte
  | [] => []
  | Event.data bs :: rest => bs ++ streamBytes rest
  | Event.fail _ :: rest => streamBytes rest

/-- Two results of `Read` that a caller cannot tell apart, on transports that still agree
outside `S`: same bytes and error (or panic), same queue, same writer and counter. -/
def ReadsAgree (S : List Nat) (x y : Outcome × NcmWrapper) : Prop :=
  x.1 = y.1 ∧ x.2.buf = y.2.buf ∧ x.2.targetWriter = y.2.targetWriter
  ∧ x.2.sequenceNum = y.2.sequenceNum
  ∧ ∃ p, readersAgree S p x.2.targetReader y.2.targetReader = true

/-! ## Facts about the byte codec -/

theorem byteOf_val (n : Nat) : (byteOf n).val = n % 256 := rfl

theorem uint16At_putUint16 (n : Nat) (rest : List Byte) :
    uint16At (putUint16 n ++ rest) 0 = n % 65536 := by
  simp only [uint16At, putUint16, List.cons_append, List.nil_append, List.getD_cons_zero,
    List.getD_cons_succ, byteOf_val]
  omega

/-- Every `Write` call on the transport appends its buffer to the log, whatever it returns. -/
theorem Writer_Write_log (w : Writer) (b : List Byte) :
    (w.Write b).2.log = w.log ++ [b] := by
  unfold Writer.Write
  rcases w.script with _ | ⟨_ | e, rest⟩ <;> rfl

theorem writeBuffer_length (s : Nat) (p : List Byte) :
    (writeBuffer s p).length = p.length + 30 := by
  simp [writeBuffer, header.encode, datagramPointerHeader.encode, datagram.encode,
    putUint16, putUint32]

/-- The 30 bytes that precede the frame in the buffer of `Write`, written out. -/
theorem writeBuffer_eq (s : Nat) (p : List Byte) :
    writeBuffer s p =
      [0x4E, 0x43, 0x4D, 0x48, 12, 0, byteOf s, byteOf (s / 256),
        byteOf ((p.length + 30) % 65536), byteOf ((p.length + 30) % 65536 / 256), 12, 0,
        0x4E, 0x43, 0x4D, 0x30, 16, 0, 0, 0,
        30, 0, byteOf (p.length % 65536), byteOf (p.length % 65536 / 256),
        0, 0, 0, 0,
        0, 0] ++ p := by
  simp only [writeBuffer, header.encode, datagramPointerHeader.encode, datagram.encode,
    putUint16, putUint32, headerSignature, datagramPointerHeaderSignature,
    List.cons_append, List.nil_append, List.append_assoc]
  rfl

theorem NcmWrapper_Write_log (r : NcmWrapper) (p : List Byte) :
    (r.Write p).2.targetWriter.log = r.targetWriter.log ++ [writeBuffer r.sequenceNum p] := by
  simp [NcmWrapper.Write, Writer_Write_log]

theorem NcmWrapper_Write_sequenceNum (r : NcmWrapper) (p : List Byte) :
    (r.Write p).2.sequenceNum = (r.sequenceNum + 1) % 65536 := rfl

/-! ## The encoder -/

theorem writeAll_log (ps : List (List Byte)) (r : NcmWrapper) :
    (writeAll r ps).targetWriter.log = r.targetWriter.log ++ seqBuffers r.sequenceNum ps := by
  induction ps generalizing r with
  | nil => simp [writeAll, seqBuffers]
  | cons p ps ih =>
    simp [writeAll, seqBuffers, ih, NcmWrapper_Write_log, NcmWrapper_Write_sequenceNum]

theorem uint16At_writeBuffer_six (s : Nat) (p : List Byte) :
    uint16At (writeBuffer s p) 6 = s % 65536 := by
  rw [writeBuffer_eq]
  simp only [uint16At, List.cons_append, List.getD_cons_succ, List.getD_cons_zero, byteOf_val]
  omega

theorem seqBuffers_seq (ps : List (List Byte)) (s n : Nat) (h : n < ps.length) :
    uint16At ((seqBuffers s ps).getD n []) 6 = (s + n) % 65536 := by
  induction ps generalizing s n with
  | nil => simp at h
  | cons p ps ih =>
    cases n with
    | zero => simp [seqBuffers, uint16At_writeBuffer_six]
    | succ n =>
      have hn : n < ps.length := by simpa using h
      simp only [seqBuffers, List.getD_cons_succ]
      rw [ih _ _ hn]
      omega

/-- C2: for a frame `p` of at most 65505 bytes and a counter `s = r.sequenceNum` (a `uint16`),
`Write` hands the transport one buffer made of the NTH bytes (signature `NCMH`, HeaderLen 12,
SequenceNum `s`, BlockLen `len p + 30`, NdpIndex 12), the NDP bytes (signature `NCM0`,
Length 16, NextNdpIndex 0), the entry (30, `len p`), the entry (0, 0), two zero bytes and
then `p`; the three variable 16-bit fields, read back little endian, are `s`, `len p + 30`
and `len p`. -/
theorem Write_layout (r : NcmWrapper) (p : List Byte) (hp : p.length ≤ 65505)
    (hs : r.sequenceNum < 65536) :
    (r.Write p).2.targetWriter.log = r.targetWriter.log ++
      [[0x4E, 0x43, 0x4D, 0x48, 12, 0, byteOf r.sequenceNum, byteOf (r.sequenceNum / 256),
        byteOf (p.length + 30), byteOf ((p.length + 30) / 256), 12, 0,
        0x4E, 0x43, 0x4D, 0x30, 16, 0, 0, 0,
        30, 0, byteOf p.length, byteOf (p.length / 256),
        0, 0, 0, 0,
        0, 0] ++ p]
    ∧ (byteOf r.sequenceNum).val + 256 * (byteOf (r.sequenceNum / 256)).val = r.sequenceNum
    ∧ (byteOf (p.length + 30)).val + 256 * (byteOf ((p.length + 30) / 256)).val = p.length + 30
    ∧ (byteOf p.length).val + 256 * (byteOf (p.length / 256)).val = p.length := by
  refine ⟨?_, ?_, ?_, ?_⟩
  · rw [NcmWrapper_Write_log, writeBuffer_eq, Nat.mod_eq_of_lt (by omega : p.length + 30 < 65536),
      Nat.mod_eq_of_lt (by omega : p.length < 65536)]
  · simp only [byteOf_val]; omega
  · simp only [byteOf_val]; omega
  · simp only [byteOf_val]; omega

theorem Write_layout_witness :
    (3 : Nat) ≤ 65505 ∧ (258 : Nat) < 65536 ∧
    ((NcmWrapper.mk [] ⟨[], []⟩ [] 258).Write [7, 8, 9]).2.targetWriter.log =
      [[0x4E, 0x43, 0x4D, 0x48, 12, 0, 2, 1, 33, 0, 12, 0,
        0x4E, 0x43, 0x4D, 0x30, 16, 0, 0, 0, 30, 0, 3, 0, 0, 0, 0, 0, 0, 0, 7, 8, 9]] :=
  ⟨by decide, by decide,
    (Write_layout (NcmWrapper.mk [] ⟨[], []⟩ [] 258) [7, 8, 9] (by decide) (by decide)).1⟩

/-- C3: one call of `Write` on a frame of length `L` makes exactly one write on the outbound
transport (its log grows by one buffer), and that buffer has `L + 12 + 16 + 2 = L + 30`
bytes. -/
theorem Write_single_buffer (r : NcmWrapper) (p : List Byte) :
    ∃ b, (r.Write p).2.targetWriter.log = r.targetWriter.log ++ [b]
      ∧ b.length = p.length + 12 + 16 + 2 ∧ b.length = p.length + 30 :=
  ⟨writeBuffer r.sequenceNum p, NcmWrapper_Write_log r p, by rw [writeBuffer_length],
    writeBuffer_length _ _⟩

/-- C4 (the code departs from the claim): on a transport whose `Write` fails with the error
`transport 1`, `NcmWrapper.Write` still returns `(len p, nil)`; more generally the error it
returns is `nil` for every wrapper and frame, because the results of the transport call are
dropped. -/
theorem Write_drops_transport_error :
    ((NcmWrapper.mk [] ⟨[], [some (Err.transport 1)]⟩ [] 0).targetWriter.Write
        (writeBuffer 0 [7, 8, 9])).1 = (0, some (Err.transport 1))
    ∧ ((NcmWrapper.mk [] ⟨[], [some (Err.transport 1)]⟩ [] 0).Write [7, 8, 9]).1 = (3, none)
    ∧ ∀ (r : NcmWrapper) (p : List Byte), (r.Write p).1 = (p.length, none) :=
  ⟨rfl, rfl, fun _ _ => rfl⟩

/-- C7: a wrapper made by `NewWrapper` starts with counter 0, and starting from a wrapper
whose counter is `s`, the `n`-th successive `Write` (counting from 0) emits a buffer whose
SequenceNum field (bytes 6 and 7, little endian) is `(s + n) mod 65536`. -/
theorem Write_sequence_numbers (tr : Reader) (tw : Writer) (r : NcmWrapper)
    (ps : List (List Byte)) (n : Nat) (h : n < ps.length) :
    (NewWrapper tr tw).sequenceNum = 0
    ∧ uint16At ((writeAll r ps).targetWriter.log.getD (r.targetWriter.log.length + n) []) 6
        = (r.sequenceNum + n) % 65536 := by
  refine ⟨rfl, ?_⟩
  rw [writeAll_log, List.getD_append_right _ _ _ _ (Nat.le_add_right _ _),
    Nat.add_sub_cancel_left]
  exact seqBuffers_seq ps r.sequenceNum n h

theorem Write_sequence_numbers_witness :
    (1 : Nat) < ([[1], [2], [3]] : List (List Byte)).length ∧
    uint16At ((writeAll (NcmWrapper.mk [] ⟨[], []⟩ [] 65535)
      [[1], [2], [3]]).targetWriter.log.getD (0 + 1) []) 6 = (65535 + 1) % 65536 :=
  ⟨by decide, (Write_sequence_numbers [] ⟨[], []⟩ (NcmWrapper.mk [] ⟨[], []⟩ [] 65535)
      [[1], [2], [3]] 1 (by decide)).2⟩

/-! ## Reading one block from a chunk of the transport -/

theorem readFull_chunk (n : Nat) (a b : List Byte) (rest : Reader) (ha : a.length = n)
    (hn : n ≠ 0) (hb : b ≠ []) :
    readFull (Event.data (a ++ b) :: rest) n = (Except.ok a, Event.data b :: rest) := by
  subst ha
  have hb' : 0 < b.length := List.length_pos.mpr hb
  simp [readFull, readLoop, hn, hb']

theorem Read_chunk (n : Nat) (a b : List Byte) (rest : Reader) (ha : a.length = n)
    (hb : b ≠ []) :
    Reader.Read (Event.data (a ++ b) :: rest) n = ((a, none), Event.data b :: rest) := by
  subst ha
  have hb' : 0 < b.length := List.length_pos.mpr hb
  simp [Reader.Read, hb']

theorem Read_whole (n : Nat) (a : List Byte) (rest : Reader) (ha : a.length = n) :
    Reader.Read (Event.data a :: rest) n = ((a, none), rest) := by
  subst ha
  simp [Reader.Read]

theorem copyNDiscard_chunk (n : Nat) (a b : List Byte) (rest : Reader) (ha : a.length = n)
    (hn : n ≠ 0) (hb : b ≠ []) :
    copyNDiscard (Event.data (a ++ b) :: rest) n = ((n, none), Event.data b :: rest) := by
  subst ha
  have hb' : 0 < b.length := List.length_pos.mpr hb
  simp [copyNDiscard, discardLoop, hn, hb']

theorem copyNDiscard_whole (n : Nat) (a : List Byte) (rest : Reader) (ha : a.length = n)
    (hn : n ≠ 0) :
    copyNDiscard (Event.data a :: rest) n = ((n, none), rest) := by
  subst ha
  simp [copyNDiscard, discardLoop, hn]

theorem header_decode_encode (h : header) :
    header.decode h.encode =
      { Signature := h.Signature % 4294967296, HeaderLen := h.HeaderLen % 65536,
        SequenceNum := h.SequenceNum % 65536, BlockLen := h.BlockLen % 65536,
        NpdIndex := h.NpdIndex % 65536 } := by
  simp only [header.decode, header.encode, putUint32, putUint16, uint32At, uint16At,
    List.cons_append, List.nil_append, List.getD_cons_zero, List.getD_cons_succ, byteOf_val,
    header.mk.injEq]
  refine ⟨?_, ?_, ?_, ?_, ?_⟩ <;> omega

theorem dph_decode_encode (dh : datagramPointerHeader) :
    datagramPointerHeader.decode dh.encode =
      { Signature := dh.Signature % 4294967296, Length := dh.Length % 65536,
        NextNpdIndex := dh.NextNpdIndex % 65536 } := by
  simp only [datagramPointerHeader.decode, datagramPointerHeader.encode, putUint32, putUint16,
    uint32At, uint16At, List.cons_append, List.nil_append, List.getD_cons_zero,
    List.getD_cons_succ, byteOf_val, datagramPointerHeader.mk.injEq]
  refine ⟨?_, ?_, ?_⟩ <;> omega

theorem datagram_decode_encode (d : datagram) (rest : List Byte) :
    datagram.decode (d.encode ++ rest) =
      { Index := d.Index % 65536, Length := d.Length % 65536 } := by
  simp only [datagram.decode, datagram.encode, putUint16,
    uint16At, List.cons_append, List.nil_append, List.getD_cons_zero,
    List.getD_cons_succ, byteOf_val, datagram.mk.injEq]
  refine ⟨?_, ?_⟩ <;> omega

theorem header_encode_length (h : header) : h.encode.length = 12 := rfl

theorem dph_encode_length (dh : datagramPointerHeader) :
    dh.encode.length = 8 := rfl

theorem datagram_encode_length (d : datagram) : d.encode.length = 4 := rfl

theorem writeBuffer_split (s : Nat) (p : List Byte) :
    writeBuffer s p =
      (writeHeader s p).encode ++ (writeDph.encode ++ (writeTable p ++ ([0, 0] ++ p))) := by
  simp [writeBuffer, writeHeader, writeDph, writeTable]

theorem writeHeader_decode (s : Nat) (F : List Byte) (hlen : F.length ≤ 65505) :
    header.decode (writeHeader s F).encode =
      { Signature := headerSignature, HeaderLen := 12, SequenceNum := s % 65536,
        BlockLen := F.length + 30, NpdIndex := 12 } := by
  rw [header_decode_encode]
  simp only [writeHeader, headerSignature, header.mk.injEq]
  refine ⟨by norm_num, by norm_num, trivial, by omega, by norm_num⟩

theorem writeDph_decode : datagramPointerHeader.decode writeDph.encode = writeDph := by
  rw [dph_decode_encode]
  simp [writeDph, datagramPointerHeaderSignature]


theorem readBlock_writeBuffer (s : Nat) (F : List Byte) (hF : F ≠ []) (hlen : F.length ≤ 65505)
    (rest : Reader) :
    readBlock (Event.data (writeBuffer s F) :: rest) =
      (Except.ok
        { h := header.decode (writeHeader s F).encode
          dh := writeDph
          datagrams := writeTable F
          totalHeaderLength := 30
          payload := F }, rest) := by
  have e1 := readFull_chunk 12 (writeHeader s F).encode
    (writeDph.encode ++ (writeTable F ++ (0 :: 0 :: F))) rest rfl (by omega)
    (by simp [writeDph, datagramPointerHeader.encode, putUint32])
  have e2 := readFull_chunk 8 writeDph.encode (writeTable F ++ (0 :: 0 :: F)) rest rfl
    (by omega) (by simp [writeTable, datagram.encode, putUint16])
  have e3 := Read_chunk 8 (writeTable F) (0 :: 0 :: F) rest rfl (by simp)
  have e4 : copyNDiscard (Event.data (0 :: 0 :: F) :: rest) 2 = ((2, none), Event.data F :: rest) :=
    copyNDiscard_chunk 2 [0, 0] F rest rfl (by omega) hF
  have e5 := Read_whole F.length F rest rfl
  have hd := writeHeader_decode s F hlen
  have hp : sub16 (F.length + 30) 30 = F.length := by unfold sub16; omega
  have hm : F.length % 65536 = F.length := by omega
  have hl : (writeTable F).length = 8 := rfl
  rw [writeBuffer_split]
  unfold readBlock
  rw [show ([0, 0] ++ F : List Byte) = 0 :: 0 :: F from rfl, e1]
  simp only [hd, writeDph_decode, e2]
  simp only [writeDph, ne_eq, not_true_eq_false, if_false, ite_false]
  have h16 : ¬ ((16 : Nat) = 140) := by omega
  have hm8 : sub16 16 8 = 8 := by unfold sub16; omega
  have h30 : (12 + 16 + 2) % 65536 = 30 := by omega
  simp only [h16, if_false, hm8, e3, hl, Nat.sub_self, List.replicate_zero, List.append_nil, e4,
    h30, hp, e5, if_true, not_true_eq_false]


theorem datagramTable_writeTable (F : List Byte) (hlen : F.length ≤ 65505) :
    datagramTable (writeTable F) = [⟨30, F.length⟩, ⟨0, 0⟩] := by
  have hl : (writeTable F).length = 8 := rfl
  have h2 : List.range (8 / 4) = [0, 1] := by decide
  have hm : F.length % 65536 = F.length := by omega
  simp only [datagramTable, hl, h2, List.map_cons, List.map_nil, Nat.mul_zero, List.drop_zero,
    Nat.mul_one]
  have hd4 : (writeTable F).drop 4 = (datagram.mk 0 0).encode ++ [] := by
    simp [writeTable, datagram.encode, putUint16]
  rw [hd4, datagram_decode_encode]
  unfold writeTable
  rw [datagram_decode_encode]
  simp only [hm, Nat.zero_mod, Nat.mod_eq_of_lt (by omega : 30 < 65536)]

theorem sliceExpr_whole (F : List Byte) : sliceExpr F 0 F.length = some F := by
  simp [sliceExpr]

theorem copyDatagrams_cons_zero (thl : Nat) (pl : List Byte) (d : datagram)
    (ds : List datagram) (buf : List Byte) (h : d.Length = 0) :
    copyDatagrams thl pl (d :: ds) buf = copyDatagrams thl pl ds buf := by
  rw [copyDatagrams, if_pos h]

theorem copyDatagrams_cons_some (thl : Nat) (pl : List Byte) (d : datagram)
    (ds : List datagram) (buf s : List Byte) (h : d.Length ≠ 0)
    (hs : sliceExpr pl (sub16 d.Index thl) d.Length = some s) :
    copyDatagrams thl pl (d :: ds) buf = copyDatagrams thl pl ds (buf ++ s) := by
  rw [copyDatagrams, if_neg h]
  simp only [hs]

theorem copyDatagrams_cons_none (thl : Nat) (pl : List Byte) (d : datagram)
    (ds : List datagram) (buf : List Byte) (h : d.Length ≠ 0)
    (hs : sliceExpr pl (sub16 d.Index thl) d.Length = none) :
    copyDatagrams thl pl (d :: ds) buf = (true, buf) := by
  rw [copyDatagrams, if_neg h]
  simp only [hs]

theorem sub16_self (a : Nat) : sub16 a a = 0 := by
  unfold sub16; omega

theorem copyDatagrams_writeTable (F buf : List Byte) :
    copyDatagrams 30 F [⟨30, F.length⟩, ⟨0, 0⟩] buf = (false, buf ++ F) := by
  by_cases h : F.length = 0
  · have hF : F = [] := List.length_eq_zero.mp h
    subst hF
    rw [copyDatagrams_cons_zero _ _ _ _ _ rfl, copyDatagrams_cons_zero _ _ _ _ _ rfl,
      copyDatagrams, List.append_nil]
  · have hs : sliceExpr F (sub16 (datagram.mk 30 F.length).Index 30)
        (datagram.mk 30 F.length).Length = some F := by
      show sliceExpr F (sub16 30 30) F.length = some F
      rw [sub16_self 30, sliceExpr_whole]
    rw [copyDatagrams_cons_some _ _ _ _ _ F h hs, copyDatagrams_cons_zero _ _ _ _ _ rfl,
      copyDatagrams]

theorem copyAndServe_done (r : NcmWrapper) (k : Nat) (b : Block) (t : Reader)
    (buf : List Byte)
    (h : copyDatagrams b.totalHeaderLength b.payload (datagramTable b.datagrams) r.buf
      = (false, buf)) :
    copyAndServe r k b t = serve { r with targetReader := t, buf := buf } k := by
  unfold copyAndServe
  rw [h]

theorem copyAndServe_panic (r : NcmWrapper) (k : Nat) (b : Block) (t : Reader)
    (buf : List Byte)
    (h : copyDatagrams b.totalHeaderLength b.payload (datagramTable b.datagrams) r.buf
      = (true, buf)) :
    copyAndServe r k b t = (Outcome.panic, { r with targetReader := t, buf := buf }) := by
  unfold copyAndServe
  rw [h]

theorem Read_of_short_queue (r : NcmWrapper) (k : Nat) (hk : r.buf.length < k) :
    r.Read k =
      match readBlock r.targetReader with
      | (Except.error e, t) => (Outcome.ret [] (some e), { r with targetReader := t })
      | (Except.ok b, t) => copyAndServe r k b t := by
  unfold NcmWrapper.Read
  rw [if_neg (by omega)]

theorem Read_of_block (r : NcmWrapper) (k : Nat) (hk : r.buf.length < k) (b : Block)
    (t : Reader) (hb : readBlock r.targetReader = (Except.ok b, t)) :
    r.Read k = copyAndServe r k b t := by
  rw [Read_of_short_queue r k hk, hb]

theorem Read_of_block_error (r : NcmWrapper) (k : Nat) (hk : r.buf.length < k) (e : Err)
    (t : Reader) (hb : readBlock r.targetReader = (Except.error e, t)) :
    r.Read k = (Outcome.ret [] (some e), { r with targetReader := t }) := by
  rw [Read_of_short_queue r k hk, hb]

/-- Decoding the buffer of `Write` for a non-empty frame of at most 65505 bytes, whatever the
queue holds: the frame is appended to the queue and the request is served from it. -/
theorem Read_writeBuffer (r : NcmWrapper) (s k : Nat) (F : List Byte) (rest : Reader)
    (hF : F ≠ []) (hlen : F.length ≤ 65505) (hk : r.buf.length < k)
    (ht : r.targetReader = Event.data (writeBuffer s F) :: rest) :
    r.Read k = serve { r with targetReader := rest, buf := r.buf ++ F } k := by
  have hb := readBlock_writeBuffer s F hF hlen rest
  rw [← ht] at hb
  rw [Read_of_block r k hk _ _ hb]
  apply copyAndServe_done
  show copyDatagrams 30 F (datagramTable (writeTable F)) r.buf = (false, r.buf ++ F)
  rw [datagramTable_writeTable F hlen, copyDatagrams_writeTable]

/-- A `Read` call with an empty destination delivers no byte. -/
theorem Reader_Read_zero (t : Reader) :
    (∃ e t2, Reader.Read t 0 = (([], some e), t2)) ∨ (∃ t2, Reader.Read t 0 = (([], none), t2)) := by
  rcases t with _ | ⟨ev, rest⟩
  · exact Or.inl ⟨Err.EOF, [], rfl⟩
  · cases ev with
    | fail e => exact Or.inl ⟨e, rest, rfl⟩
    | data bs =>
      right
      by_cases h : 0 < bs.length
      · exact ⟨Event.data (bs.drop 0) :: rest, by simp only [Reader.Read, if_pos h, List.take_zero]⟩
      · have hb : bs = [] := List.length_eq_zero.mp (by omega)
        subst hb
        exact ⟨rest, by simp only [Reader.Read, if_neg h]⟩

theorem readBlock_writeBuffer_nil (s : Nat) (rest : Reader) :
    (∃ e t, readBlock (Event.data (writeBuffer s []) :: rest) = (Except.error e, t))
    ∨ (∃ t, readBlock (Event.data (writeBuffer s []) :: rest) =
      (Except.ok
        { h := header.decode (writeHeader s []).encode
          dh := writeDph
          datagrams := writeTable []
          totalHeaderLength := 30
          payload := [] }, t)) := by
  have e1 := readFull_chunk 12 (writeHeader s []).encode
    (writeDph.encode ++ (writeTable [] ++ [0, 0])) rest rfl (by omega)
    (by simp [writeDph, datagramPointerHeader.encode, putUint32])
  have e2 := readFull_chunk 8 writeDph.encode (writeTable [] ++ [0, 0]) rest rfl
    (by omega) (by simp [writeTable, datagram.encode, putUint16])
  have e3 := Read_chunk 8 (writeTable []) [0, 0] rest rfl (by simp)
  have e4 := copyNDiscard_whole 2 [0, 0] rest rfl (by omega)
  have hd := writeHeader_decode s [] (by simp)
  have hp : sub16 (([] : List Byte).length + 30) 30 = 0 := by
    rw [List.length_nil]; unfold sub16; omega
  have hl : (writeTable []).length = 8 := rfl
  have h16 : ¬ ((16 : Nat) = 140) := by omega
  have hm8 : sub16 16 8 = 8 := by unfold sub16; omega
  have h30 : (12 + 16 + 2) % 65536 = 30 := by omega
  rw [writeBuffer_split]
  unfold readBlock
  rw [show (([0, 0] : List Byte) ++ []) = [0, 0] from rfl, e1]
  simp only [hd, writeDph_decode, e2]
  simp only [writeDph, ne_eq, not_true_eq_false, if_false, ite_false]
  simp only [h16, if_false, hm8, e3, hl, Nat.sub_self, List.replicate_zero, List.append_nil, e4,
    h30, hp, if_true, not_true_eq_false]
  rcases Reader_Read_zero rest with ⟨e, t2, h⟩ | ⟨t2, h⟩
  · left
    exact ⟨e, t2, by rw [h]⟩
  · right
    exact ⟨t2, by rw [h]; simp only [List.length_nil, not_true_eq_false, if_false]⟩

theorem copyDatagrams_writeTable_nil (buf : List Byte) :
    copyDatagrams 30 [] (datagramTable (writeTable [])) buf = (false, buf) := by
  rw [datagramTable_writeTable [] (by simp), copyDatagrams_writeTable, List.append_nil]

theorem serve_nil (r : NcmWrapper) (k : Nat) (h : r.buf = []) :
    ∃ e, (serve r k).1 = Outcome.ret [] e ∧ (k = 0 → e = none) ∧ (serve r k).2.buf = [] := by
  unfold serve bufRead
  rw [if_pos h]
  by_cases hk : k = 0
  · rw [if_pos hk]; exact ⟨none, rfl, fun _ => rfl, rfl⟩
  · rw [if_neg hk]; exact ⟨some Err.EOF, rfl, fun h0 => absurd h0 hk, rfl⟩

theorem serve_all (r : NcmWrapper) (k : Nat) (h : r.buf ≠ []) (hk : r.buf.length ≤ k) :
    (serve r k).1 = Outcome.ret r.buf none ∧ (serve r k).2.buf = [] := by
  unfold serve bufRead
  rw [if_neg h]
  exact ⟨by simp only [List.take_of_length_le hk], by simp only [List.drop_of_length_le hk]⟩

/-- C1: round trip.  Let `F` be a frame of at most 65505 bytes and let a fresh wrapper
(`NewWrapper`, transport log empty) `Write` it.  When the buffers so emitted are the inbound
transport of a wrapper with an empty queue (followed by anything), one `Read` with a
destination of `k ≥ len F` bytes delivers exactly the bytes of `F` and leaves the queue
empty.  The error returned is `nil` whenever `F` is non-empty or `k = 0`; for the empty frame
read into a non-empty destination the zero bytes come with an error (`io.EOF` from the empty
queue, or the error of the transport). -/
theorem Write_Read_roundtrip (F : List Byte) (k : Nat) (hF : F.length ≤ 65505)
    (hk : F.length ≤ k) (tr0 : Reader) (sc : List (Option Err)) (tw : Writer) (rest : Reader) :
    ∃ e,
      ((NewWrapper
          (((NewWrapper tr0 ⟨[], sc⟩).Write F).2.targetWriter.log.map Event.data ++ rest)
          tw).Read k).1 = Outcome.ret F e
      ∧ (F ≠ [] → e = none) ∧ (k = 0 → e = none)
      ∧ ((NewWrapper
          (((NewWrapper tr0 ⟨[], sc⟩).Write F).2.targetWriter.log.map Event.data ++ rest)
          tw).Read k).2.buf = [] := by
  have hlog : ((NewWrapper tr0 ⟨[], sc⟩).Write F).2.targetWriter.log.map Event.data ++ rest
      = Event.data (writeBuffer 0 F) :: rest := by
    rw [NcmWrapper_Write_log]; rfl
  rw [hlog]
  by_cases hk0 : k = 0
  · subst hk0
    have hF0 : F = [] := List.length_eq_zero.mp (by omega)
    subst hF0
    exact ⟨none, rfl, fun _ => rfl, fun _ => rfl, rfl⟩
  · have hq : (NewWrapper (Event.data (writeBuffer 0 F) :: rest) tw).buf.length < k := by
      show ([] : List Byte).length < k
      rw [List.length_nil]; omega
    by_cases hne : F = []
    · subst hne
      rcases readBlock_writeBuffer_nil 0 rest with ⟨e, t, h⟩ | ⟨t, h⟩
      · rw [Read_of_block_error _ k hq e t h]
        exact ⟨some e, rfl, fun h0 => absurd rfl h0, fun h0 => absurd h0 hk0, rfl⟩
      · rw [Read_of_block _ k hq _ t h,
          copyAndServe_done _ k _ t [] (copyDatagrams_writeTable_nil [])]
        obtain ⟨e, h1, -, h3⟩ := serve_nil (NcmWrapper.mk t tw [] 0) k rfl
        exact ⟨e, h1, fun h0 => absurd rfl h0, fun h0 => absurd h0 hk0, h3⟩
    · rw [Read_writeBuffer _ 0 k F rest hne hF hq rfl]
      have hs := serve_all (NcmWrapper.mk rest tw F 0) k hne hk
      exact ⟨none, hs.1, fun _ => rfl, fun _ => rfl, hs.2⟩

theorem Write_Read_roundtrip_witness :
    ([10, 20, 30] : List Byte).length ≤ 65505 ∧ ([10, 20, 30] : List Byte).length ≤ 3 ∧
    ∃ e,
      ((NewWrapper
          (((NewWrapper [] ⟨[], []⟩).Write [10, 20, 30]).2.targetWriter.log.map Event.data ++ [])
          ⟨[], []⟩).Read 3).1 = Outcome.ret [10, 20, 30] e
      ∧ (([10, 20, 30] : List Byte) ≠ [] → e = none) ∧ (3 = 0 → e = none)
      ∧ ((NewWrapper
          (((NewWrapper [] ⟨[], []⟩).Write [10, 20, 30]).2.targetWriter.log.map Event.data ++ [])
          ⟨[], []⟩).Read 3).2.buf = [] :=
  ⟨by decide, by decide,
    Write_Read_roundtrip [10, 20, 30] 3 (by decide) (by decide) [] [] ⟨[], []⟩ []⟩

/-! ## The decoder: errors -/

theorem readLoop_length (t : Reader) :
    ∀ (got : List Byte) (need : Nat) (bs : List Byte) (t2 : Reader),
      readLoop t got need = (Except.ok bs, t2) → bs.length = got.length + need := by
  induction t with
  | nil => intro got need bs t2 h; simp [readLoop] at h
  | cons ev rest ih =>
    intro got need bs t2 h
    cases ev with
    | fail e => simp [readLoop] at h
    | data cs =>
      rw [readLoop] at h
      by_cases h1 : need < cs.length
      · rw [if_pos h1] at h
        obtain ⟨rfl, -⟩ := Prod.mk.inj h |>.imp Except.ok.inj id
        rw [List.length_append, List.length_take, Nat.min_eq_left (Nat.le_of_lt h1)]
      · rw [if_neg h1] at h
        by_cases h2 : need = cs.length
        · rw [if_pos h2] at h
          obtain ⟨rfl, -⟩ := Prod.mk.inj h |>.imp Except.ok.inj id
          rw [List.length_append, h2]
        · rw [if_neg h2] at h
          rw [ih _ _ _ _ h, List.length_append]
          omega

/-- A successful `io.ReadFull` delivers exactly the number of bytes asked for. -/
theorem readFull_length (t : Reader) (n : Nat) (bs : List Byte) (t2 : Reader)
    (h : readFull t n = (Except.ok bs, t2)) : bs.length = n := by
  unfold readFull at h
  by_cases h0 : n = 0
  · rw [if_pos h0] at h
    obtain ⟨rfl, -⟩ := Prod.mk.inj h |>.imp Except.ok.inj id
    rw [h0]; rfl
  · rw [if_neg h0] at h
    rw [readLoop_length t [] n bs t2 h, List.length_nil, Nat.zero_add]

theorem readBlock_wrong_header (t t1 : Reader) (hb : List Byte)
    (h1 : readFull t 12 = (Except.ok hb, t1)) (hs : uint32At hb 0 ≠ 0x484D434E) :
    readBlock t = (Except.error Err.wrongHeaderSignature, t1) := by
  have hs2 : (header.decode hb).Signature ≠ headerSignature := hs
  unfold readBlock
  rw [h1]
  simp only [if_pos hs2]

theorem readBlock_wrong_pointer (t t1 t2 : Reader) (hb db : List Byte)
    (h1 : readFull t 12 = (Except.ok hb, t1)) (hs : uint32At hb 0 = 0x484D434E)
    (h2 : readFull t1 8 = (Except.ok db, t2)) (hd : uint32At db 0 ≠ 0x304D434E) :
    readBlock t = (Except.error Err.wrongDatagramPointerSignature, t2) := by
  have hs2 : ¬ (header.decode hb).Signature ≠ headerSignature := fun h => h hs
  have hd2 : (datagramPointerHeader.decode db).Signature ≠ datagramPointerHeaderSignature := hd
  unfold readBlock
  rw [h1]
  simp only [if_neg hs2, h2, if_pos hd2]

/-- C8: when the queue holds fewer bytes than requested and the 12 bytes that `binary.Read`
obtains for the NTH carry a signature other than `0x484D434E`, `Read` returns the error
"wrong header signature" with 0 bytes; only those 12 bytes have been taken from the transport
and the wrapper, its queue included, is otherwise as before the call. -/
theorem Read_wrong_header_signature (r : NcmWrapper) (k : Nat) (hb : List Byte) (t1 : Reader)
    (hk : r.buf.length < k) (h1 : readFull r.targetReader 12 = (Except.ok hb, t1))
    (hs : uint32At hb 0 ≠ 0x484D434E) :
    hb.length = 12
    ∧ r.Read k = (Outcome.ret [] (some Err.wrongHeaderSignature), { r with targetReader := t1 })
    ∧ (r.Read k).2.buf = r.buf := by
  have h := Read_of_block_error r k hk _ t1 (readBlock_wrong_header _ t1 hb h1 hs)
  exact ⟨readFull_length _ _ _ _ h1, h, by rw [h]⟩

theorem Read_wrong_header_signature_witness :
    ([5, 6] : List Byte).length < 4
    ∧ (NcmWrapper.mk [Event.data [0x4E, 0x43, 0x4D, 0x49, 12, 0, 0, 0, 42, 0, 12, 0, 0x4E, 0x43]]
        ⟨[], []⟩ [5, 6] 0).Read 4
      = (Outcome.ret [] (some Err.wrongHeaderSignature),
          NcmWrapper.mk [Event.data [0x4E, 0x43]] ⟨[], []⟩ [5, 6] 0) :=
  ⟨by decide,
    (Read_wrong_header_signature
      (NcmWrapper.mk [Event.data [0x4E, 0x43, 0x4D, 0x49, 12, 0, 0, 0, 42, 0, 12, 0, 0x4E, 0x43]]
        ⟨[], []⟩ [5, 6] 0) 4 [0x4E, 0x43, 0x4D, 0x49, 12, 0, 0, 0, 42, 0, 12, 0]
      [Event.data [0x4E, 0x43]] (by decide) rfl (by decide)).2.1⟩

/-- C9: when the queue holds fewer bytes than requested, the 12 NTH bytes carry the signature
`0x484D434E` and the 8 bytes `binary.Read` obtains next carry an NDP signature other than
`0x304D434E`, `Read` returns the error "wrong datagram pointer signature" with 0 bytes, and
the transport is left as it was right after those 12 + 8 bytes: no byte of the pointer table
or of the payload has been read.  The queue is unchanged. -/
theorem Read_wrong_pointer_signature (r : NcmWrapper) (k : Nat) (hb db : List Byte)
    (t1 t2 : Reader) (hk : r.buf.length < k)
    (h1 : readFull r.targetReader 12 = (Except.ok hb, t1)) (hs : uint32At hb 0 = 0x484D434E)
    (h2 : readFull t1 8 = (Except.ok db, t2)) (hd : uint32At db 0 ≠ 0x304D434E) :
    hb.length = 12 ∧ db.length = 8
    ∧ r.Read k =
        (Outcome.ret [] (some Err.wrongDatagramPointerSignature), { r with targetReader := t2 })
    ∧ (r.Read k).2.buf = r.buf := by
  have h := Read_of_block_error r k hk _ t2 (readBlock_wrong_pointer _ t1 t2 hb db h1 hs h2 hd)
  exact ⟨readFull_length _ _ _ _ h1, readFull_length _ _ _ _ h2, h, by rw [h]⟩

theorem Read_wrong_pointer_signature_witness :
    ([] : List Byte).length < 4
    ∧ (NcmWrapper.mk [Event.data [0x4E, 0x43, 0x4D, 0x48, 12, 0, 0, 0, 34, 0, 12, 0,
          0x4E, 0x43, 0x4D, 0x31, 16, 0, 0, 0, 30, 0, 4, 0, 0, 0, 0, 0, 0, 0, 1, 2, 3, 4]]
        ⟨[], []⟩ [] 0).Read 4
      = (Outcome.ret [] (some Err.wrongDatagramPointerSignature),
          NcmWrapper.mk [Event.data [30, 0, 4, 0, 0, 0, 0, 0, 0, 0, 1, 2, 3, 4]] ⟨[], []⟩ [] 0) :=
  ⟨by decide,
    (Read_wrong_pointer_signature
      (NcmWrapper.mk [Event.data [0x4E, 0x43, 0x4D, 0x48, 12, 0, 0, 0, 34, 0, 12, 0,
          0x4E, 0x43, 0x4D, 0x31, 16, 0, 0, 0, 30, 0, 4, 0, 0, 0, 0, 0, 0, 0, 1, 2, 3, 4]]
        ⟨[], []⟩ [] 0) 4
      [0x4E, 0x43, 0x4D, 0x48, 12, 0, 0, 0, 34, 0, 12, 0] [0x4E, 0x43, 0x4D, 0x31, 16, 0, 0, 0]
      [Event.data [0x4E, 0x43, 0x4D, 0x31, 16, 0, 0, 0, 30, 0, 4, 0, 0, 0, 0, 0, 0, 0, 1, 2, 3, 4]]
      [Event.data [30, 0, 4, 0, 0, 0, 0, 0, 0, 0, 1, 2, 3, 4]]
      (by decide) rfl (by decide) rfl (by decide)).2.2.1⟩

/-! ## The decoder: the loop over the pointer table -/

theorem copyDatagrams_extends (thl : Nat) (pl : List Byte) (ds : List datagram) :
    ∀ buf : List Byte, ∃ s, (copyDatagrams thl pl ds buf).2 = buf ++ s := by
  induction ds with
  | nil => intro buf; exact ⟨[], by rw [copyDatagrams, List.append_nil]⟩
  | cons d ds ih =>
    intro buf
    by_cases h0 : d.Length = 0
    · rw [copyDatagrams_cons_zero _ _ _ _ _ h0]; exact ih buf
    · cases hs : sliceExpr pl (sub16 d.Index thl) d.Length with
      | none =>
        rw [copyDatagrams_cons_none _ _ _ _ _ h0 hs]
        exact ⟨[], by rw [List.append_nil]⟩
      | some s =>
        rw [copyDatagrams_cons_some _ _ _ _ _ s h0 hs]
        obtain ⟨s2, h2⟩ := ih (buf ++ s)
        exact ⟨s ++ s2, by rw [h2, List.append_assoc]⟩

theorem sliceExpr_none_of_long (pl : List Byte) (low high : Nat) (h : pl.length < high) :
    sliceExpr pl low high = none := by
  unfold sliceExpr
  rw [if_neg (by omega)]

theorem copyDatagrams_long_entry (thl : Nat) (pl : List Byte) (d : datagram) (h0 : d.Length ≠ 0)
    (hlen : pl.length < d.Length) (ds : List datagram) :
    ∀ buf : List Byte, d ∈ ds → (copyDatagrams thl pl ds buf).1 = true := by
  induction ds with
  | nil => intro buf hd; simp at hd
  | cons e ds ih =>
    intro buf hd
    by_cases he : e.Length = 0
    · rw [copyDatagrams_cons_zero _ _ _ _ _ he]
      rcases List.mem_cons.mp hd with h | h
      · exact absurd (h ▸ he) h0
      · exact ih buf h
    · cases hs : sliceExpr pl (sub16 e.Index thl) e.Length with
      | none => rw [copyDatagrams_cons_none _ _ _ _ _ he hs]
      | some s =>
        rw [copyDatagrams_cons_some _ _ _ _ _ s he hs]
        rcases List.mem_cons.mp hd with h | h
        · subst h
          rw [sliceExpr_none_of_long pl _ _ hlen] at hs
          exact absurd hs (by simp)
        · exact ih (buf ++ s) h

theorem Reader_Read_length_le (t : Reader) (n : Nat) : (Reader.Read t n).1.1.length ≤ n := by
  rcases t with _ | ⟨ev, rest⟩
  · simp [Reader.Read]
  · cases ev with
    | fail e => simp [Reader.Read]
    | data bs =>
      by_cases h : n < bs.length
      · simp only [Reader.Read, if_pos h, List.length_take]; omega
      · simp only [Reader.Read, if_neg h]; omega

/-- Every successful run of lines 61-109, stage by stage. -/
theorem readBlock_ok_inv (t t2 : Reader) (b : Block) (h : readBlock t = (Except.ok b, t2)) :
    ∃ (hb db got pl : List Byte) (ta tb tc td : Reader) (dh : datagramPointerHeader),
      readFull t 12 = (Except.ok hb, ta)
      ∧ (header.decode hb).Signature = headerSignature
      ∧ readFull ta 8 = (Except.ok db, tb)
      ∧ (datagramPointerHeader.decode db).Signature = datagramPointerHeaderSignature
      ∧ dh = (if (datagramPointerHeader.decode db).Length = 0x8c then
          { datagramPointerHeader.decode db with Length := 0x3c }
          else datagramPointerHeader.decode db)
      ∧ tb.Read (sub16 dh.Length 8) = ((got, none), tc)
      ∧ copyNDiscard tc 2 = ((2, none), td)
      ∧ td.Read (sub16 (header.decode hb).BlockLen
          (((header.decode hb).HeaderLen + dh.Length + 2) % 65536)) = ((pl, none), t2)
      ∧ pl.length = sub16 (header.decode hb).BlockLen
          (((header.decode hb).HeaderLen + dh.Length + 2) % 65536)
      ∧ b = { h := header.decode hb, dh := dh,
              datagrams := got ++ List.replicate (sub16 dh.Length 8 - got.length) 0,
              totalHeaderLength := ((header.decode hb).HeaderLen + dh.Length + 2) % 65536,
              payload := pl } := by
  unfold readBlock at h
  rcases h1 : readFull t 12 with ⟨e | hb, t1⟩
  · rw [h1] at h; simp only [Prod.mk.injEq, reduceCtorEq, false_and] at h
  rw [h1] at h
  dsimp only at h
  by_cases hs : (header.decode hb).Signature ≠ headerSignature
  · rw [if_pos hs] at h; simp only [Prod.mk.injEq, reduceCtorEq, false_and] at h
  rw [if_neg hs] at h
  rcases h2 : readFull t1 8 with ⟨e | db, t3⟩
  · rw [h2] at h; simp only [Prod.mk.injEq, reduceCtorEq, false_and] at h
  rw [h2] at h
  dsimp only at h
  by_cases hd : (datagramPointerHeader.decode db).Signature ≠ datagramPointerHeaderSignature
  · rw [if_pos hd] at h; simp only [Prod.mk.injEq, reduceCtorEq, false_and] at h
  rw [if_neg hd] at h
  refine ⟨hb, db, ?_⟩
  generalize hdh : (if (datagramPointerHeader.decode db).Length = 0x8c then
      ({ datagramPointerHeader.decode db with Length := 0x3c } : datagramPointerHeader)
      else datagramPointerHeader.decode db) = dh at h
  rcases h3 : t3.Read (sub16 dh.Length 8) with ⟨⟨got, _ | e⟩, t4⟩
  swap
  · rw [h3] at h; simp only [Prod.mk.injEq, reduceCtorEq, false_and] at h
  rw [h3] at h
  dsimp only at h
  rcases h4 : copyNDiscard t4 2 with ⟨⟨skipped, _ | e⟩, t5⟩
  swap
  · rw [h4] at h; simp only [Prod.mk.injEq, reduceCtorEq, false_and] at h
  rw [h4] at h
  dsimp only at h
  by_cases hsk : skipped ≠ 2
  · rw [if_pos hsk] at h; simp only [Prod.mk.injEq, reduceCtorEq, false_and] at h
  rw [if_neg hsk] at h
  have hsk2 : skipped = 2 := not_not.mp hsk
  subst hsk2
  rcases h5 : t5.Read (sub16 (header.decode hb).BlockLen
      (((header.decode hb).HeaderLen + dh.Length + 2) % 65536)) with ⟨⟨pl, _ | e⟩, t6⟩
  swap
  · rw [h5] at h; simp only [Prod.mk.injEq, reduceCtorEq, false_and] at h
  rw [h5] at h
  dsimp only at h
  by_cases hpl : pl.length ≠ sub16 (header.decode hb).BlockLen
      (((header.decode hb).HeaderLen + dh.Length + 2) % 65536)
  · rw [if_pos hpl] at h; simp only [Prod.mk.injEq, reduceCtorEq, false_and] at h
  rw [if_neg hpl] at h
  obtain ⟨hb1, hb2⟩ := Prod.mk.inj h
  subst hb2
  exact ⟨got, pl, t1, t3, t4, t5, dh, rfl, not_not.mp hs, h2, not_not.mp hd, rfl, h3, h4,
    h5, not_not.mp hpl, (Except.ok.inj hb1).symm⟩

/-- What holds of a block that lines 61-109 have accepted. -/
theorem readBlock_ok (t t2 : Reader) (b : Block) (h : readBlock t = (Except.ok b, t2)) :
    b.h.Signature = headerSignature ∧ b.dh.Signature = datagramPointerHeaderSignature
    ∧ b.datagrams.length = sub16 b.dh.Length 8
    ∧ b.totalHeaderLength = (b.h.HeaderLen + b.dh.Length + 2) % 65536
    ∧ b.payload.length = sub16 b.h.BlockLen b.totalHeaderLength := by
  obtain ⟨hb, db, got, pl, ta, tb, tc, td, dh, -, hs, -, hd, hdh, h3, -, -, hpl, rfl⟩ :=
    readBlock_ok_inv t t2 b h
  refine ⟨hs, ?_, ?_, rfl, hpl⟩
  · show dh.Signature = _
    rw [hdh]; split
    · exact hd
    · exact hd
  · show (got ++ List.replicate (sub16 dh.Length 8 - got.length) 0).length = _
    have hle := Reader_Read_length_le tb (sub16 dh.Length 8)
    rw [h3] at hle
    rw [List.length_append, List.length_replicate]
    show got.length + (sub16 dh.Length 8 - got.length) = sub16 dh.Length 8
    have : got.length ≤ sub16 dh.Length 8 := hle
    omega

theorem serve_error (r : NcmWrapper) (k : Nat) (d : List Byte) (e : Err)
    (h : (serve r k).1 = Outcome.ret d (some e)) :
    r.buf = [] ∧ d = [] ∧ (serve r k).2.buf = [] := by
  unfold serve bufRead at h ⊢
  by_cases hb : r.buf = []
  · rw [if_pos hb] at h ⊢
    by_cases hk : k = 0
    · rw [if_pos hk] at h; simp at h
    · rw [if_neg hk] at h ⊢
      simp only [Outcome.ret.injEq] at h
      exact ⟨hb, h.1.symm, rfl⟩
  · rw [if_neg hb] at h
    simp at h

/-- C5 (as amended): let lines 61-109 accept a block (both signatures valid, payload read in
full) while the queue is shorter than the request, and let some entry of its table have a
non-zero Length greater than `payloadLength = BlockLen - (HeaderLen + NdpLength + 2)`, so
that `offset + Length > payloadLength` whatever the offset.  Then `Read` returns neither data
nor an error value: the slice expression panics. -/
theorem Read_long_entry_panics (r : NcmWrapper) (k : Nat) (b : Block) (t : Reader)
    (d : datagram) (hk : r.buf.length < k)
    (hb : readBlock r.targetReader = (Except.ok b, t))
    (hd : d ∈ datagramTable b.datagrams) (h0 : d.Length ≠ 0)
    (hlen : sub16 b.h.BlockLen ((b.h.HeaderLen + b.dh.Length + 2) % 65536) < d.Length) :
    (r.Read k).1 = Outcome.panic := by
  obtain ⟨-, -, -, hthl, hpl⟩ := readBlock_ok _ _ _ hb
  rw [hthl] at hpl
  rw [← hpl] at hlen
  rw [Read_of_block r k hk b t hb]
  have hp := copyDatagrams_long_entry b.totalHeaderLength b.payload d h0 hlen
    (datagramTable b.datagrams) r.buf hd
  rcases hc : copyDatagrams b.totalHeaderLength b.payload (datagramTable b.datagrams) r.buf
    with ⟨flag, buf⟩
  rw [hc] at hp
  have hf : flag = true := hp
  subst hf
  rw [copyAndServe_panic r k b t buf hc]

theorem Read_long_entry_panics_witness :
    ([] : List Byte).length < 8
    ∧ (⟨30, 9⟩ : datagram) ∈ datagramTable [30, 0, 9, 0, 0, 0, 0, 0]
    ∧ sub16 34 ((12 + 16 + 2) % 65536) < 9
    ∧ ((NcmWrapper.mk [Event.data [0x4E, 0x43, 0x4D, 0x48, 12, 0, 0, 0, 34, 0, 12, 0,
          0x4E, 0x43, 0x4D, 0x30, 16, 0, 0, 0, 30, 0, 9, 0, 0, 0, 0, 0, 0, 0, 1, 2, 3, 4]]
        ⟨[], []⟩ [] 0).Read 8).1 = Outcome.panic :=
  ⟨by decide, by decide, by decide,
    Read_long_entry_panics
      (NcmWrapper.mk [Event.data [0x4E, 0x43, 0x4D, 0x48, 12, 0, 0, 0, 34, 0, 12, 0,
          0x4E, 0x43, 0x4D, 0x30, 16, 0, 0, 0, 30, 0, 9, 0, 0, 0, 0, 0, 0, 0, 1, 2, 3, 4]]
        ⟨[], []⟩ [] 0) 8
      { h := { Signature := 0x484D434E, HeaderLen := 12, SequenceNum := 0, BlockLen := 34,
               NpdIndex := 12 }
        dh := { Signature := 0x304D434E, Length := 16, NextNpdIndex := 0 }
        datagrams := [30, 0, 9, 0, 0, 0, 0, 0]
        totalHeaderLength := 30
        payload := [1, 2, 3, 4] }
      [] ⟨30, 9⟩ (by decide) rfl (by decide) (by decide) (by decide)⟩

/-- C5 (the claim as stated fails): in this NTB both signatures are valid, HeaderLen = 12,
NdpLength = 16, BlockLen = 34, so `totalHeaderLength = 30` and `payloadLength = 4`; its entry
(Index 31, Length 4) has `offset = 1` and `offset + Length = 5 > 4`.  `Read` returns the three
bytes `payload[1:4]` with a `nil` error. -/
theorem Read_out_of_range_entry_no_error :
    (readBlock [Event.data [0x4E, 0x43, 0x4D, 0x48, 12, 0, 0, 0, 34, 0, 12, 0,
        0x4E, 0x43, 0x4D, 0x30, 16, 0, 0, 0, 31, 0, 4, 0, 0, 0, 0, 0, 0, 0, 1, 2, 3, 4]]).1
      = Except.ok
          { h := { Signature := 0x484D434E, HeaderLen := 12, SequenceNum := 0, BlockLen := 34,
                   NpdIndex := 12 }
            dh := { Signature := 0x304D434E, Length := 16, NextNpdIndex := 0 }
            datagrams := [31, 0, 4, 0, 0, 0, 0, 0]
            totalHeaderLength := 30
            payload := [1, 2, 3, 4] }
    ∧ datagramTable [31, 0, 4, 0, 0, 0, 0, 0] = [⟨31, 4⟩, ⟨0, 0⟩]
    ∧ sub16 31 30 + 4 > sub16 34 30
    ∧ (NcmWrapper.mk [Event.data [0x4E, 0x43, 0x4D, 0x48, 12, 0, 0, 0, 34, 0, 12, 0,
          0x4E, 0x43, 0x4D, 0x30, 16, 0, 0, 0, 31, 0, 4, 0, 0, 0, 0, 0, 0, 0, 1, 2, 3, 4]]
        ⟨[], []⟩ [] 0).Read 8
      = (Outcome.ret [2, 3, 4] none, NcmWrapper.mk [] ⟨[], []⟩ [] 0) :=
  ⟨rfl, by decide, by decide, by decide⟩

/-- C6 (the code departs from the claim): this NTB has HeaderLen = 12, NdpLength = 20,
BlockLen = 38, hence `totalHeaderLength = 34` and a 4-byte payload `[1, 2, 3, 4]`; its table
holds (34, 2), (36, 2) and the terminator, that is offsets 0 and 2, both in range.  The claim
has `[1, 2]` and then `[3, 4]` appended to the queue.  The code slices `payload[offset:Length]`:
it appends `payload[0:2] = [1, 2]` and then `payload[2:2]`, which is empty, so a `Read` of up
to 8 bytes delivers `[1, 2]` only and the queue has grown by 2 bytes, not by 4. -/
theorem Read_second_datagram_lost :
    (readBlock [Event.data [0x4E, 0x43, 0x4D, 0x48, 12, 0, 0, 0, 38, 0, 12, 0,
        0x4E, 0x43, 0x4D, 0x30, 20, 0, 0, 0, 34, 0, 2, 0, 36, 0, 2, 0, 0, 0, 0, 0,
        0, 0, 1, 2, 3, 4]]).1
      = Except.ok
          { h := { Signature := 0x484D434E, HeaderLen := 12, SequenceNum := 0, BlockLen := 38,
                   NpdIndex := 12 }
            dh := { Signature := 0x304D434E, Length := 20, NextNpdIndex := 0 }
            datagrams := [34, 0, 2, 0, 36, 0, 2, 0, 0, 0, 0, 0]
            totalHeaderLength := 34
            payload := [1, 2, 3, 4] }
    ∧ datagramTable [34, 0, 2, 0, 36, 0, 2, 0, 0, 0, 0, 0] = [⟨34, 2⟩, ⟨36, 2⟩, ⟨0, 0⟩]
    ∧ sub16 34 34 + 2 ≤ 4 ∧ sub16 36 34 + 2 ≤ 4
    ∧ copyDatagrams 34 [1, 2, 3, 4] [⟨34, 2⟩, ⟨36, 2⟩, ⟨0, 0⟩] [] = (false, [1, 2])
    ∧ (NcmWrapper.mk [Event.data [0x4E, 0x43, 0x4D, 0x48, 12, 0, 0, 0, 38, 0, 12, 0,
          0x4E, 0x43, 0x4D, 0x30, 20, 0, 0, 0, 34, 0, 2, 0, 36, 0, 2, 0, 0, 0, 0, 0,
          0, 0, 1, 2, 3, 4]]
        ⟨[], []⟩ [] 0).Read 8
      = (Outcome.ret [1, 2] none, NcmWrapper.mk [] ⟨[], []⟩ [] 0) :=
  ⟨rfl, by decide, by decide, by decide, by decide, by decide⟩

/-- C10 (as amended): whenever `Read` returns an error value, it delivers 0 bytes and the
queue after the call equals the queue before it. -/
theorem Read_error_keeps_queue (r : NcmWrapper) (k : Nat) (d : List Byte) (e : Err)
    (h : (r.Read k).1 = Outcome.ret d (some e)) :
    (r.Read k).2.buf = r.buf ∧ d = [] := by
  by_cases hk : r.buf.length < k
  · rcases hrb : readBlock r.targetReader with ⟨e2 | b, t⟩
    · rw [Read_of_block_error r k hk e2 t hrb] at h ⊢
      simp only [Outcome.ret.injEq] at h
      exact ⟨rfl, h.1.symm⟩
    · rw [Read_of_block r k hk b t hrb] at h ⊢
      rcases hc : copyDatagrams b.totalHeaderLength b.payload (datagramTable b.datagrams) r.buf
        with ⟨flag, buf⟩
      cases flag with
      | true =>
        rw [copyAndServe_panic r k b t buf hc] at h
        simp at h
      | false =>
        rw [copyAndServe_done r k b t buf hc] at h ⊢
        obtain ⟨h1, h2, h3⟩ := serve_error _ k d e h
        obtain ⟨s, hs⟩ := copyDatagrams_extends b.totalHeaderLength b.payload
          (datagramTable b.datagrams) r.buf
        rw [hc] at hs
        have hbuf : buf = [] := h1
        have hs2 : r.buf ++ s = [] := by rw [← hs]; exact hbuf
        rw [h3, (List.append_eq_nil.mp hs2).1]
        exact ⟨rfl, h2⟩
  · have hge : r.buf.length ≥ k := by omega
    unfold NcmWrapper.Read at h ⊢
    rw [if_pos hge] at h ⊢
    obtain ⟨h1, h2, h3⟩ := serve_error r k d e h
    rw [h3, h1]
    exact ⟨rfl, h2⟩

theorem Read_error_keeps_queue_witness :
    ((NcmWrapper.mk [Event.data [0x4E, 0x43, 0x4D, 0x48, 12, 0, 0, 0, 34, 0, 12, 0,
          0x4E, 0x43, 0x4D, 0x30, 16, 0, 0, 0, 30, 0, 4, 0, 0, 0, 0, 0, 0, 0, 1, 2, 3]]
        ⟨[], []⟩ [5, 6] 0).Read 4).1 = Outcome.ret [] (some (Err.expectedBytes 4 3))
    ∧ ((NcmWrapper.mk [Event.data [0x4E, 0x43, 0x4D, 0x48, 12, 0, 0, 0, 34, 0, 12, 0,
          0x4E, 0x43, 0x4D, 0x30, 16, 0, 0, 0, 30, 0, 4, 0, 0, 0, 0, 0, 0, 0, 1, 2, 3]]
        ⟨[], []⟩ [5, 6] 0).Read 4).2.buf = [5, 6] :=
  ⟨by decide,
    (Read_error_keeps_queue
      (NcmWrapper.mk [Event.data [0x4E, 0x43, 0x4D, 0x48, 12, 0, 0, 0, 34, 0, 12, 0,
          0x4E, 0x43, 0x4D, 0x30, 16, 0, 0, 0, 30, 0, 4, 0, 0, 0, 0, 0, 0, 0, 1, 2, 3]]
        ⟨[], []⟩ [5, 6] 0) 4 [] (Err.expectedBytes 4 3) (by decide)).1⟩

/-- C10 (the claim as stated fails): this NTB has `totalHeaderLength = 34` and a 4-byte payload;
its first entry (34, 2) is valid and its second entry (34, 9) runs past the payload.  `Read`
returns no error value: it panics, and the two bytes of the first entry are in the queue,
which was empty before the call.  With the second entry (36, 3) instead, also out of range
(`2 + 3 > 4`), `Read` succeeds and delivers bytes of both entries. -/
theorem Read_second_entry_out_of_range :
    (NcmWrapper.mk [Event.data [0x4E, 0x43, 0x4D, 0x48, 12, 0, 0, 0, 38, 0, 12, 0,
          0x4E, 0x43, 0x4D, 0x30, 20, 0, 0, 0, 34, 0, 2, 0, 34, 0, 9, 0, 0, 0, 0, 0,
          0, 0, 1, 2, 3, 4]]
        ⟨[], []⟩ [] 0).Read 8
      = (Outcome.panic, NcmWrapper.mk [] ⟨[], []⟩ [1, 2] 0)
    ∧ (NcmWrapper.mk [Event.data [0x4E, 0x43, 0x4D, 0x48, 12, 0, 0, 0, 38, 0, 12, 0,
          0x4E, 0x43, 0x4D, 0x30, 20, 0, 0, 0, 34, 0, 2, 0, 36, 0, 3, 0, 0, 0, 0, 0,
          0, 0, 1, 2, 3, 4]]
        ⟨[], []⟩ [] 0).Read 8
      = (Outcome.ret [1, 2, 3] none, NcmWrapper.mk [] ⟨[], []⟩ [] 0) :=
  ⟨by decide, by decide⟩

/-! ## The decoder, stage by stage -/

/-- Once both headers have been read with valid signatures, the rest of lines 61-109 is
`readTail` on the three length fields. -/
theorem readBlock_headers (t ta tb : Reader) (hb db : List Byte)
    (h1 : readFull t 12 = (Except.ok hb, ta))
    (hs : (header.decode hb).Signature = headerSignature)
    (h2 : readFull ta 8 = (Except.ok db, tb))
    (hd : (datagramPointerHeader.decode db).Signature = datagramPointerHeaderSignature) :
    readBlock t = mkBlock (header.decode hb) (fixLength (datagramPointerHeader.decode db))
      (readTail (header.decode hb).HeaderLen (header.decode hb).BlockLen
        (fixLength (datagramPointerHeader.decode db)).Length tb) := by
  have hs2 : ¬ (header.decode hb).Signature ≠ headerSignature := fun h => h hs
  have hd2 : ¬ (datagramPointerHeader.decode db).Signature ≠ datagramPointerHeaderSignature :=
    fun h => h hd
  unfold readBlock
  rw [h1]
  simp only [if_neg hs2, h2, if_neg hd2]
  unfold readTail fixLength
  generalize (if (datagramPointerHeader.decode db).Length = 0x8c then
      ({ datagramPointerHeader.decode db with Length := 0x3c } : datagramPointerHeader)
      else datagramPointerHeader.decode db) = dh
  rcases h3 : tb.Read (sub16 dh.Length 8) with ⟨⟨got, _ | e⟩, tc⟩
  swap
  · simp only [h3, mkBlock]
  simp only [h3]
  rcases h4 : copyNDiscard tc 2 with ⟨⟨skipped, _ | e⟩, td⟩
  swap
  · simp only [h4, mkBlock]
  simp only [h4]
  by_cases hsk : skipped ≠ 2
  · simp only [if_pos hsk, mkBlock]
  simp only [if_neg hsk]
  rcases h5 : td.Read (sub16 (header.decode hb).BlockLen
      (((header.decode hb).HeaderLen + dh.Length + 2) % 65536)) with ⟨⟨pl, _ | e⟩, te⟩
  swap
  · simp only [h5, mkBlock]
  simp only [h5]
  by_cases hpl : pl.length ≠ sub16 (header.decode hb).BlockLen
      (((header.decode hb).HeaderLen + dh.Length + 2) % 65536)
  · simp only [if_pos hpl, mkBlock]
  · simp only [if_neg hpl, mkBlock]

theorem readTail_payload_error (headerLen blockLen ndpLength : Nat) (t2 tc td t5 : Reader)
    (got pl : List Byte) (e : Err)
    (h3 : t2.Read (sub16 ndpLength 8) = ((got, none), tc))
    (h4 : copyNDiscard tc 2 = ((2, none), td))
    (h5 : td.Read (sub16 blockLen ((headerLen + ndpLength + 2) % 65536)) = ((pl, some e), t5)) :
    readTail headerLen blockLen ndpLength t2 = (Except.error e, t5) := by
  unfold readTail
  simp only [h3, h4, ne_eq, not_true_eq_false, if_false, h5]

theorem readTail_payload_short (headerLen blockLen ndpLength : Nat) (t2 tc td t5 : Reader)
    (got pl : List Byte)
    (h3 : t2.Read (sub16 ndpLength 8) = ((got, none), tc))
    (h4 : copyNDiscard tc 2 = ((2, none), td))
    (h5 : td.Read (sub16 blockLen ((headerLen + ndpLength + 2) % 65536)) = ((pl, none), t5))
    (hpl : pl.length ≠ sub16 blockLen ((headerLen + ndpLength + 2) % 65536)) :
    readTail headerLen blockLen ndpLength t2 =
      (Except.error
        (Err.expectedBytes (sub16 blockLen ((headerLen + ndpLength + 2) % 65536)) pl.length),
        t5) := by
  unfold readTail
  simp only [h3, h4, ne_eq, not_true_eq_false, if_false, h5]
  rw [if_pos hpl]

theorem readTail_payload_full (headerLen blockLen ndpLength : Nat) (t2 tc td t5 : Reader)
    (got pl : List Byte)
    (h3 : t2.Read (sub16 ndpLength 8) = ((got, none), tc))
    (h4 : copyNDiscard tc 2 = ((2, none), td))
    (h5 : td.Read (sub16 blockLen ((headerLen + ndpLength + 2) % 65536)) = ((pl, none), t5))
    (hpl : pl.length = sub16 blockLen ((headerLen + ndpLength + 2) % 65536)) :
    readTail headerLen blockLen ndpLength t2 =
      (Except.ok (got ++ List.replicate (sub16 ndpLength 8 - got.length) 0,
        (headerLen + ndpLength + 2) % 65536, pl), t5) := by
  unfold readTail
  simp only [h3, h4, ne_eq, not_true_eq_false, if_false, h5]
  rw [if_neg (fun h => h hpl)]

theorem Read_of_headers (r : NcmWrapper) (k : Nat) (hb db : List Byte) (ta tb : Reader)
    (hk : r.buf.length < k)
    (h1 : readFull r.targetReader 12 = (Except.ok hb, ta))
    (hs : (header.decode hb).Signature = headerSignature)
    (h2 : readFull ta 8 = (Except.ok db, tb))
    (hd : (datagramPointerHeader.decode db).Signature = datagramPointerHeaderSignature) :
    r.Read k =
      match mkBlock (header.decode hb) (fixLength (datagramPointerHeader.decode db))
        (readTail (header.decode hb).HeaderLen (header.decode hb).BlockLen
          (fixLength (datagramPointerHeader.decode db)).Length tb) with
      | (Except.error e, t) => (Outcome.ret [] (some e), { r with targetReader := t })
      | (Except.ok b, t) => copyAndServe r k b t := by
  rw [Read_of_short_queue r k hk, readBlock_headers _ ta tb hb db h1 hs h2 hd]

theorem Read_of_tail_error (r : NcmWrapper) (k : Nat) (hb db : List Byte) (ta tb t5 : Reader)
    (e : Err) (hk : r.buf.length < k)
    (h1 : readFull r.targetReader 12 = (Except.ok hb, ta))
    (hs : (header.decode hb).Signature = headerSignature)
    (h2 : readFull ta 8 = (Except.ok db, tb))
    (hd : (datagramPointerHeader.decode db).Signature = datagramPointerHeaderSignature)
    (ht : readTail (header.decode hb).HeaderLen (header.decode hb).BlockLen
          (fixLength (datagramPointerHeader.decode db)).Length tb = (Except.error e, t5)) :
    r.Read k = (Outcome.ret [] (some e), { r with targetReader := t5 }) := by
  rw [Read_of_headers r k hb db ta tb hk h1 hs h2 hd, ht]
  simp only [mkBlock]

theorem Read_of_tail_ok (r : NcmWrapper) (k : Nat) (hb db : List Byte) (ta tb t5 : Reader)
    (dg pl : List Byte) (thl : Nat) (hk : r.buf.length < k)
    (h1 : readFull r.targetReader 12 = (Except.ok hb, ta))
    (hs : (header.decode hb).Signature = headerSignature)
    (h2 : readFull ta 8 = (Except.ok db, tb))
    (hd : (datagramPointerHeader.decode db).Signature = datagramPointerHeaderSignature)
    (ht : readTail (header.decode hb).HeaderLen (header.decode hb).BlockLen
          (fixLength (datagramPointerHeader.decode db)).Length tb
            = (Except.ok (dg, thl, pl), t5)) :
    r.Read k = copyAndServe r k
      { h := header.decode hb, dh := fixLength (datagramPointerHeader.decode db),
        datagrams := dg, totalHeaderLength := thl, payload := pl } t5 := by
  rw [Read_of_headers r k hb db ta tb hk h1 hs h2 hd, ht]
  simp only [mkBlock]

/-- C11 (as amended): the code has no check of the declared lengths.  When both signatures are
valid, the table and the two skipped bytes have been read, and `BlockLen` is smaller than
`totalHeaderLength = (HeaderLen + NdpLength + 2) mod 65536`, the `uint16` subtraction wraps:
`payloadLength = BlockLen + 65536 - totalHeaderLength`, between 1 and 65535, and `Read` does
read a payload of that size from the transport.  It returns the transport's error if that
read fails, the error "expected n bytes, but only read m" if fewer bytes arrive (0 bytes
delivered in both cases), and goes on to the loop over the table otherwise. -/
theorem Read_underflow_wraps (r : NcmWrapper) (k : Nat) (hb db got : List Byte)
    (ta tb tc td : Reader) (hk : r.buf.length < k)
    (h1 : readFull r.targetReader 12 = (Except.ok hb, ta))
    (hs : uint32At hb 0 = 0x484D434E)
    (h2 : readFull ta 8 = (Except.ok db, tb))
    (hd : uint32At db 0 = 0x304D434E)
    (h3 : tb.Read (sub16 (fixLength (datagramPointerHeader.decode db)).Length 8)
      = ((got, none), tc))
    (h4 : copyNDiscard tc 2 = ((2, none), td))
    (hu : (header.decode hb).BlockLen <
      ((header.decode hb).HeaderLen + (fixLength (datagramPointerHeader.decode db)).Length + 2)
        % 65536) :
    ∃ n thl : Nat,
      thl = ((header.decode hb).HeaderLen
        + (fixLength (datagramPointerHeader.decode db)).Length + 2) % 65536
      ∧ n = (header.decode hb).BlockLen + 65536 - thl ∧ 1 ≤ n ∧ n ≤ 65535
      ∧ (∀ pl e t5, td.Read n = ((pl, some e), t5) →
          r.Read k = (Outcome.ret [] (some e), { r with targetReader := t5 }))
      ∧ (∀ pl t5, td.Read n = ((pl, none), t5) → pl.length ≠ n →
          r.Read k = (Outcome.ret [] (some (Err.expectedBytes n pl.length)),
            { r with targetReader := t5 }))
      ∧ (∀ pl t5, td.Read n = ((pl, none), t5) → pl.length = n →
          r.Read k = copyAndServe r k
            { h := header.decode hb, dh := fixLength (datagramPointerHeader.decode db),
              datagrams := got ++ List.replicate
                (sub16 (fixLength (datagramPointerHeader.decode db)).Length 8 - got.length) 0,
              totalHeaderLength := thl, payload := pl } t5) := by
  have hn : sub16 (header.decode hb).BlockLen
      (((header.decode hb).HeaderLen + (fixLength (datagramPointerHeader.decode db)).Length + 2)
        % 65536)
      = (header.decode hb).BlockLen + 65536
        - ((header.decode hb).HeaderLen
          + (fixLength (datagramPointerHeader.decode db)).Length + 2) % 65536 := by
    unfold sub16; omega
  refine ⟨_, _, rfl, rfl, by omega, by omega, ?_, ?_, ?_⟩
  · intro pl e t5 h5
    rw [← hn] at h5
    exact Read_of_tail_error r k hb db ta tb t5 e hk h1 hs h2 hd
      (readTail_payload_error _ _ _ tb tc td t5 got pl e h3 h4 h5)
  · intro pl t5 h5 hpl
    rw [← hn] at h5 hpl ⊢
    exact Read_of_tail_error r k hb db ta tb t5 _ hk h1 hs h2 hd
      (readTail_payload_short _ _ _ tb tc td t5 got pl h3 h4 h5 hpl)
  · intro pl t5 h5 hpl
    rw [← hn] at h5 hpl
    exact Read_of_tail_ok r k hb db ta tb t5 _ pl _ hk h1 hs h2 hd
      (readTail_payload_full _ _ _ tb tc td t5 got pl h3 h4 h5 hpl)

theorem Read_underflow_wraps_witness :
    ([] : List Byte).length < 4
    ∧ (header.decode [0x4E, 0x43, 0x4D, 0x48, 12, 0, 0, 0, 20, 0, 12, 0]).BlockLen <
      ((header.decode [0x4E, 0x43, 0x4D, 0x48, 12, 0, 0, 0, 20, 0, 12, 0]).HeaderLen
        + (fixLength (datagramPointerHeader.decode
            [0x4E, 0x43, 0x4D, 0x30, 16, 0, 0, 0])).Length + 2) % 65536
    ∧ (NcmWrapper.mk [Event.data [0x4E, 0x43, 0x4D, 0x48, 12, 0, 0, 0, 20, 0, 12, 0,
          0x4E, 0x43, 0x4D, 0x30, 16, 0, 0, 0, 30, 0, 3, 0, 0, 0, 0, 0, 0, 0, 1, 2, 3]]
        ⟨[], []⟩ [] 0).Read 4
      = (Outcome.ret [] (some (Err.expectedBytes 65526 3)), NcmWrapper.mk [] ⟨[], []⟩ [] 0) := by
  refine ⟨by decide, by decide, ?_⟩
  obtain ⟨n, thl, hthl, hn, -, -, -, h, -⟩ := Read_underflow_wraps
    (NcmWrapper.mk [Event.data [0x4E, 0x43, 0x4D, 0x48, 12, 0, 0, 0, 20, 0, 12, 0,
          0x4E, 0x43, 0x4D, 0x30, 16, 0, 0, 0, 30, 0, 3, 0, 0, 0, 0, 0, 0, 0, 1, 2, 3]]
        ⟨[], []⟩ [] 0) 4
    [0x4E, 0x43, 0x4D, 0x48, 12, 0, 0, 0, 20, 0, 12, 0] [0x4E, 0x43, 0x4D, 0x30, 16, 0, 0, 0]
    [30, 0, 3, 0, 0, 0, 0, 0]
    [Event.data [0x4E, 0x43, 0x4D, 0x30, 16, 0, 0, 0, 30, 0, 3, 0, 0, 0, 0, 0, 0, 0, 1, 2, 3]]
    [Event.data [30, 0, 3, 0, 0, 0, 0, 0, 0, 0, 1, 2, 3]]
    [Event.data [0, 0, 1, 2, 3]] [Event.data [1, 2, 3]]
    (by decide) rfl (by decide) rfl (by decide) rfl rfl (by decide)
  have hn2 : n = 65526 := by rw [hn, hthl]; decide
  subst hn2
  exact h [1, 2, 3] [] rfl (by decide)

/-- C11 (the claim as stated fails): in the first NTB HeaderLen = 65517, NdpLength = 16 and
BlockLen = 0, so `BlockLen < HeaderLen + NdpLength + 2 = 65535`; `payloadLength` wraps to 1,
one payload byte is read and `Read` returns it with a `nil` error.  In the second NTB
HeaderLen = 12, NdpLength = 16 and BlockLen = 20 < 30; `Read` asks the transport for a payload
of 65526 bytes, consumes the 3 bytes that are there and reports the short read. -/
theorem Read_underflow_no_length_error :
    (header.decode [0x4E, 0x43, 0x4D, 0x48, 0xED, 0xFF, 0, 0, 0, 0, 12, 0]).HeaderLen = 65517
    ∧ (header.decode [0x4E, 0x43, 0x4D, 0x48, 0xED, 0xFF, 0, 0, 0, 0, 12, 0]).BlockLen = 0
    ∧ (NcmWrapper.mk [Event.data [0x4E, 0x43, 0x4D, 0x48, 0xED, 0xFF, 0, 0, 0, 0, 12, 0,
          0x4E, 0x43, 0x4D, 0x30, 16, 0, 0, 0, 0xFF, 0xFF, 1, 0, 0, 0, 0, 0, 0, 0, 7]]
        ⟨[], []⟩ [] 0).Read 4
      = (Outcome.ret [7] none, NcmWrapper.mk [] ⟨[], []⟩ [] 0)
    ∧ (NcmWrapper.mk [Event.data [0x4E, 0x43, 0x4D, 0x48, 12, 0, 0, 0, 20, 0, 12, 0,
          0x4E, 0x43, 0x4D, 0x30, 16, 0, 0, 0, 30, 0, 3, 0, 0, 0, 0, 0, 0, 0, 1, 2, 3]]
        ⟨[], []⟩ [] 0).Read 4
      = (Outcome.ret [] (some (Err.expectedBytes 65526 3)), NcmWrapper.mk [] ⟨[], []⟩ [] 0) :=
  ⟨by decide, by decide, by decide, by decide⟩

/-- C16: when both signatures are valid, the table and the two skipped bytes have been read,
and the transport's `Read` for the payload delivers fewer than
`payloadLength = BlockLen - (HeaderLen + NdpLength + 2)` bytes, `Read` returns an error with
0 bytes and the queue is left as it was: the transport's own error if that call returned one,
the error "expected n bytes, but only read m" otherwise. -/
theorem Read_short_payload (r : NcmWrapper) (k : Nat) (hb db got pl : List Byte)
    (ta tb tc td t5 : Reader) (eo : Option Err) (hk : r.buf.length < k)
    (h1 : readFull r.targetReader 12 = (Except.ok hb, ta))
    (hs : uint32At hb 0 = 0x484D434E)
    (h2 : readFull ta 8 = (Except.ok db, tb))
    (hd : uint32At db 0 = 0x304D434E)
    (h3 : tb.Read (sub16 (fixLength (datagramPointerHeader.decode db)).Length 8)
      = ((got, none), tc))
    (h4 : copyNDiscard tc 2 = ((2, none), td))
    (h5 : td.Read (sub16 (header.decode hb).BlockLen
        (((header.decode hb).HeaderLen
          + (fixLength (datagramPointerHeader.decode db)).Length + 2) % 65536))
      = ((pl, eo), t5))
    (hshort : pl.length < sub16 (header.decode hb).BlockLen
        (((header.decode hb).HeaderLen
          + (fixLength (datagramPointerHeader.decode db)).Length + 2) % 65536)) :
    ∃ e, r.Read k = (Outcome.ret [] (some e), { r with targetReader := t5 })
      ∧ (r.Read k).2.buf = r.buf
      ∧ (eo = none → e = Err.expectedBytes (sub16 (header.decode hb).BlockLen
          (((header.decode hb).HeaderLen
            + (fixLength (datagramPointerHeader.decode db)).Length + 2) % 65536)) pl.length)
      ∧ (∀ e2, eo = some e2 → e = e2) := by
  cases eo with
  | some e =>
    have h := Read_of_tail_error r k hb db ta tb t5 e hk h1 hs h2 hd
      (readTail_payload_error _ _ _ tb tc td t5 got pl e h3 h4 h5)
    exact ⟨e, h, by rw [h], fun h0 => absurd h0 (by simp), fun e2 he => (Option.some.inj he)⟩
  | none =>
    have h := Read_of_tail_error r k hb db ta tb t5 _ hk h1 hs h2 hd
      (readTail_payload_short _ _ _ tb tc td t5 got pl h3 h4 h5 (Nat.ne_of_lt hshort))
    exact ⟨_, h, by rw [h], fun _ => rfl, fun e2 he => absurd he (by simp)⟩

theorem Read_short_payload_witness :
    ([5, 6] : List Byte).length < 4
    ∧ ([1, 2, 3] : List Byte).length < sub16 34 ((12 + 16 + 2) % 65536)
    ∧ ∃ e, (NcmWrapper.mk [Event.data [0x4E, 0x43, 0x4D, 0x48, 12, 0, 0, 0, 34, 0, 12, 0,
          0x4E, 0x43, 0x4D, 0x30, 16, 0, 0, 0, 30, 0, 4, 0, 0, 0, 0, 0, 0, 0, 1, 2, 3]]
        ⟨[], []⟩ [5, 6] 0).Read 4
      = (Outcome.ret [] (some e), NcmWrapper.mk [] ⟨[], []⟩ [5, 6] 0) := by
  refine ⟨by decide, by decide, ?_⟩
  obtain ⟨e, h, -⟩ := Read_short_payload
    (NcmWrapper.mk [Event.data [0x4E, 0x43, 0x4D, 0x48, 12, 0, 0, 0, 34, 0, 12, 0,
          0x4E, 0x43, 0x4D, 0x30, 16, 0, 0, 0, 30, 0, 4, 0, 0, 0, 0, 0, 0, 0, 1, 2, 3]]
        ⟨[], []⟩ [5, 6] 0) 4
    [0x4E, 0x43, 0x4D, 0x48, 12, 0, 0, 0, 34, 0, 12, 0] [0x4E, 0x43, 0x4D, 0x30, 16, 0, 0, 0]
    [30, 0, 4, 0, 0, 0, 0, 0] [1, 2, 3]
    [Event.data [0x4E, 0x43, 0x4D, 0x30, 16, 0, 0, 0, 30, 0, 4, 0, 0, 0, 0, 0, 0, 0, 1, 2, 3]]
    [Event.data [30, 0, 4, 0, 0, 0, 0, 0, 0, 0, 1, 2, 3]]
    [Event.data [0, 0, 1, 2, 3]] [Event.data [1, 2, 3]] [] none
    (by decide) rfl (by decide) rfl (by decide) rfl rfl rfl (by decide)
  exact ⟨e, h⟩

/-! ## The read contract -/

theorem serve_eq (r : NcmWrapper) (k : Nat) :
    ∃ e, serve r k = (Outcome.ret (r.buf.take k) e, { r with buf := r.buf.drop k })
      ∧ (r.buf ≠ [] → e = none) ∧ (k = 0 → e = none) := by
  unfold serve bufRead
  by_cases hb : r.buf = []
  · rw [if_pos hb]
    by_cases hk : k = 0
    · rw [if_pos hk, hb]
      exact ⟨none, by simp, fun _ => rfl, fun _ => rfl⟩
    · rw [if_neg hk, hb]
      exact ⟨some Err.EOF, by simp, fun h => absurd rfl h, fun h => absurd h hk⟩
  · rw [if_neg hb]
    exact ⟨none, rfl, fun _ => rfl, fun _ => rfl⟩

/-- C13: the contract of `Read`.  If the queue holds at least `k = len(p)` bytes, `Read`
returns exactly its first `k` bytes with a `nil` error, removes them from the front of the
queue and leaves the transport untouched.  Otherwise, when lines 61-109 accept a block and the
loop over its table ends without a panic, leaving the queue as `buf2`, the transport is left
as it was right after that one block and `Read` returns the first `min k (len buf2)` bytes of
`buf2`, removing them from its front (with a `nil` error unless `buf2` is empty). -/
theorem Read_contract (r : NcmWrapper) (k : Nat) :
    (k ≤ r.buf.length →
      r.Read k = (Outcome.ret (r.buf.take k) none, { r with buf := r.buf.drop k })
      ∧ (r.buf.take k).length = k)
    ∧ (r.buf.length < k → ∀ (b : Block) (t : Reader) (buf2 : List Byte),
        readBlock r.targetReader = (Except.ok b, t) →
        copyDatagrams b.totalHeaderLength b.payload (datagramTable b.datagrams) r.buf
          = (false, buf2) →
        ∃ e, r.Read k = (Outcome.ret (buf2.take k) e,
              { r with targetReader := t, buf := buf2.drop k })
          ∧ (buf2.take k).length = min k buf2.length ∧ (buf2 ≠ [] → e = none)) := by
  constructor
  · intro hk
    have hlen : (r.buf.take k).length = k := by rw [List.length_take]; omega
    refine ⟨?_, hlen⟩
    unfold NcmWrapper.Read
    rw [if_pos hk]
    obtain ⟨e, he, h1, h2⟩ := serve_eq r k
    have hnone : e = none := by
      by_cases hb : r.buf = []
      · apply h2
        rw [hb] at hk
        exact Nat.le_zero.mp hk
      · exact h1 hb
    rw [he, hnone]
  · intro hk b t buf2 hb hc
    rw [Read_of_block r k hk b t hb, copyAndServe_done r k b t buf2 hc]
    obtain ⟨e, he, h1, -⟩ := serve_eq { r with targetReader := t, buf := buf2 } k
    exact ⟨e, he, List.length_take _ _, h1⟩

theorem Read_contract_witness :
    (2 ≤ ([5, 6, 7] : List Byte).length →
      (NcmWrapper.mk [Event.data [1]] ⟨[], []⟩ [5, 6, 7] 0).Read 2
        = (Outcome.ret [5, 6] none, NcmWrapper.mk [Event.data [1]] ⟨[], []⟩ [7] 0))
    ∧ (([5] : List Byte).length < 3 →
      ∃ e, (NcmWrapper.mk [Event.data [0x4E, 0x43, 0x4D, 0x48, 12, 0, 0, 0, 34, 0, 12, 0,
          0x4E, 0x43, 0x4D, 0x30, 16, 0, 0, 0, 30, 0, 4, 0, 0, 0, 0, 0, 0, 0, 1, 2, 3, 4],
          Event.data [9, 9]] ⟨[], []⟩ [5] 0).Read 3
        = (Outcome.ret [5, 1, 2] e,
            NcmWrapper.mk [Event.data [9, 9]] ⟨[], []⟩ [3, 4] 0)) := by
  constructor
  · intro h
    exact ((Read_contract (NcmWrapper.mk [Event.data [1]] ⟨[], []⟩ [5, 6, 7] 0) 2).1 h).1
  · intro h
    have hb : readBlock (NcmWrapper.mk [Event.data [0x4E, 0x43, 0x4D, 0x48, 12, 0, 0, 0, 34, 0,
          12, 0, 0x4E, 0x43, 0x4D, 0x30, 16, 0, 0, 0, 30, 0, 4, 0, 0, 0, 0, 0, 0, 0, 1, 2, 3, 4],
          Event.data [9, 9]] ⟨[], []⟩ [5] 0).targetReader
        = (Except.ok
            { h := { Signature := 0x484D434E, HeaderLen := 12, SequenceNum := 0, BlockLen := 34,
                     NpdIndex := 12 }
              dh := { Signature := 0x304D434E, Length := 16, NextNpdIndex := 0 }
              datagrams := [30, 0, 4, 0, 0, 0, 0, 0]
              totalHeaderLength := 30
              payload := [1, 2, 3, 4] }, [Event.data [9, 9]]) := rfl
    obtain ⟨e, he, -⟩ := (Read_contract
      (NcmWrapper.mk [Event.data [0x4E, 0x43, 0x4D, 0x48, 12, 0, 0, 0, 34, 0, 12, 0,
          0x4E, 0x43, 0x4D, 0x30, 16, 0, 0, 0, 30, 0, 4, 0, 0, 0, 0, 0, 0, 0, 1, 2, 3, 4],
          Event.data [9, 9]] ⟨[], []⟩ [5] 0) 3).2 h _ _ [5, 1, 2, 3, 4] hb (by decide)
    exact ⟨e, he⟩

/-! ## Zero-length entries -/

theorem copyDatagrams_skip (thl : Nat) (pl : List Byte) (d : datagram) (ds2 : List datagram)
    (h0 : d.Length = 0) (ds1 : List datagram) :
    ∀ buf : List Byte,
      copyDatagrams thl pl (ds1 ++ d :: ds2) buf = copyDatagrams thl pl (ds1 ++ ds2) buf := by
  induction ds1 with
  | nil => intro buf; exact copyDatagrams_cons_zero _ _ _ _ _ h0
  | cons e ds1 ih =>
    intro buf
    rw [List.cons_append, List.cons_append]
    by_cases he : e.Length = 0
    · rw [copyDatagrams_cons_zero _ _ _ _ _ he, copyDatagrams_cons_zero _ _ _ _ _ he]
      exact ih buf
    · cases hs : sliceExpr pl (sub16 e.Index thl) e.Length with
      | none =>
        rw [copyDatagrams_cons_none _ _ _ _ _ he hs, copyDatagrams_cons_none _ _ _ _ _ he hs]
      | some s =>
        rw [copyDatagrams_cons_some _ _ _ _ _ s he hs, copyDatagrams_cons_some _ _ _ _ _ s he hs]
        exact ih (buf ++ s)

theorem copyAndServe_of_table (r : NcmWrapper) (k : Nat) (b : Block) (t : Reader)
    (ds : List datagram)
    (h : copyDatagrams b.totalHeaderLength b.payload (datagramTable b.datagrams) r.buf
      = copyDatagrams b.totalHeaderLength b.payload ds r.buf) :
    copyAndServe r k b t =
      match copyDatagrams b.totalHeaderLength b.payload ds r.buf with
      | (true, buf) => (Outcome.panic, { r with targetReader := t, buf := buf })
      | (false, buf) => serve { r with targetReader := t, buf := buf } k := by
  unfold copyAndServe
  rw [h]

/-- C15: an entry of the pointer table whose Length is 0 (the terminator `(0, 0)` or any
other) is skipped wherever it stands: the loop over the table `ds1 ++ d :: ds2` gives the
same queue and the same outcome (end of loop or panic) as the loop over `ds1 ++ ds2`, and
so `Read` returns what it would return if the entry were not processed.  With the entry
alone in the table the queue is unchanged and nothing panics. -/
theorem Read_skips_zero_length_entry (r : NcmWrapper) (k : Nat) (b : Block) (t : Reader)
    (ds1 ds2 : List datagram) (d : datagram) (hk : r.buf.length < k)
    (hb : readBlock r.targetReader = (Except.ok b, t))
    (htab : datagramTable b.datagrams = ds1 ++ d :: ds2) (h0 : d.Length = 0) :
    copyDatagrams b.totalHeaderLength b.payload (datagramTable b.datagrams) r.buf
      = copyDatagrams b.totalHeaderLength b.payload (ds1 ++ ds2) r.buf
    ∧ r.Read k =
      (match copyDatagrams b.totalHeaderLength b.payload (ds1 ++ ds2) r.buf with
        | (true, buf) => (Outcome.panic, { r with targetReader := t, buf := buf })
        | (false, buf) => serve { r with targetReader := t, buf := buf } k)
    ∧ copyDatagrams b.totalHeaderLength b.payload [d] r.buf = (false, r.buf) := by
  have h : copyDatagrams b.totalHeaderLength b.payload (datagramTable b.datagrams) r.buf
      = copyDatagrams b.totalHeaderLength b.payload (ds1 ++ ds2) r.buf := by
    rw [htab]
    exact copyDatagrams_skip _ _ d ds2 h0 ds1 r.buf
  refine ⟨h, ?_, ?_⟩
  · rw [Read_of_block r k hk b t hb]
    exact copyAndServe_of_table r k b t _ h
  · rw [copyDatagrams_cons_zero _ _ _ _ _ h0, copyDatagrams]

theorem Read_skips_zero_length_entry_witness :
    ([] : List Byte).length < 8
    ∧ (datagram.mk 7 0).Length = 0
    ∧ (NcmWrapper.mk [Event.data [0x4E, 0x43, 0x4D, 0x48, 12, 0, 0, 0, 38, 0, 12, 0,
          0x4E, 0x43, 0x4D, 0x30, 20, 0, 0, 0, 7, 0, 0, 0, 34, 0, 4, 0, 0, 0, 0, 0,
          0, 0, 1, 2, 3, 4]] ⟨[], []⟩ [] 0).Read 8
      = (match copyDatagrams 34 [1, 2, 3, 4] ([] ++ [⟨34, 4⟩, ⟨0, 0⟩]) [] with
        | (true, buf) => (Outcome.panic, NcmWrapper.mk [] ⟨[], []⟩ buf 0)
        | (false, buf) => serve (NcmWrapper.mk [] ⟨[], []⟩ buf 0) 8) := by
  have hb : readBlock (NcmWrapper.mk [Event.data [0x4E, 0x43, 0x4D, 0x48, 12, 0, 0, 0, 38, 0,
        12, 0, 0x4E, 0x43, 0x4D, 0x30, 20, 0, 0, 0, 7, 0, 0, 0, 34, 0, 4, 0, 0, 0, 0, 0,
        0, 0, 1, 2, 3, 4]] ⟨[], []⟩ [] 0).targetReader
      = (Except.ok
          { h := { Signature := 0x484D434E, HeaderLen := 12, SequenceNum := 0, BlockLen := 38,
                   NpdIndex := 12 }
            dh := { Signature := 0x304D434E, Length := 20, NextNpdIndex := 0 }
            datagrams := [7, 0, 0, 0, 34, 0, 4, 0, 0, 0, 0, 0]
            totalHeaderLength := 34
            payload := [1, 2, 3, 4] }, []) := rfl
  exact ⟨by decide, rfl,
    (Read_skips_zero_length_entry
      (NcmWrapper.mk [Event.data [0x4E, 0x43, 0x4D, 0x48, 12, 0, 0, 0, 38, 0, 12, 0,
          0x4E, 0x43, 0x4D, 0x30, 20, 0, 0, 0, 7, 0, 0, 0, 34, 0, 4, 0, 0, 0, 0, 0,
          0, 0, 1, 2, 3, 4]] ⟨[], []⟩ [] 0) 8 _ _ [] [⟨34, 4⟩, ⟨0, 0⟩] ⟨7, 0⟩
      (by decide) hb (by decide) rfl).2.1⟩

/-! ## Length fields of the encoder beyond 16 bits -/

theorem uint16At_writeBuffer_eight (s : Nat) (p : List Byte) :
    uint16At (writeBuffer s p) 8 = (p.length + 30) % 65536 := by
  rw [writeBuffer_eq]
  simp only [uint16At, List.cons_append, List.getD_cons_succ, List.getD_cons_zero, byteOf_val]
  omega

theorem uint16At_writeBuffer_entry (s : Nat) (p : List Byte) :
    uint16At (writeBuffer s p) 22 = p.length % 65536 := by
  rw [writeBuffer_eq]
  simp only [uint16At, List.cons_append, List.getD_cons_succ, List.getD_cons_zero, byteOf_val]
  omega

/-- C17: for every frame `p`, `Write` hands the transport one buffer `buf` whose BlockLen
field (bytes 8-9) is `(len p + 30) mod 65536` and whose entry Length field (bytes 22-23) is
`len p mod 65536`, while `buf` has `len p + 30` bytes and `Write` returns `(len p, nil)`.
Hence BlockLen equals the size of the NTB exactly when `len p ≤ 65505`, and there is a frame
of more than 65505 bytes for which `Write` succeeds with a BlockLen different from the size
of what it emitted. -/
theorem Write_length_fields_wrap (r : NcmWrapper) (p : List Byte) :
    ∃ buf, (r.Write p).2.targetWriter.log = r.targetWriter.log ++ [buf]
      ∧ uint16At buf 8 = (p.length + 30) % 65536
      ∧ uint16At buf 22 = p.length % 65536
      ∧ buf.length = p.length + 30
      ∧ (r.Write p).1 = (p.length, none)
      ∧ (uint16At buf 8 = buf.length ↔ p.length ≤ 65505)
      ∧ ∃ (q : List Byte) (bufq : List Byte), 65505 < q.length
          ∧ (r.Write q).2.targetWriter.log = r.targetWriter.log ++ [bufq]
          ∧ (r.Write q).1 = (q.length, none)
          ∧ uint16At bufq 8 ≠ bufq.length := by
  refine ⟨writeBuffer r.sequenceNum p, NcmWrapper_Write_log r p, uint16At_writeBuffer_eight _ _,
    uint16At_writeBuffer_entry _ _, writeBuffer_length _ _, rfl, ?_, ?_⟩
  · rw [uint16At_writeBuffer_eight, writeBuffer_length]
    constructor
    · intro h; omega
    · intro h; omega
  · refine ⟨List.replicate 65506 0, writeBuffer r.sequenceNum (List.replicate 65506 0), ?_,
      NcmWrapper_Write_log r _, rfl, ?_⟩
    · rw [List.length_replicate]; omega
    · rw [uint16At_writeBuffer_eight, writeBuffer_length, List.length_replicate]
      omega

/-! ## Leftover bytes when the transport runs dry -/

theorem readBlock_header_error (t t1 : Reader) (e : Err)
    (h1 : readFull t 12 = (Except.error e, t1)) :
    readBlock t = (Except.error e, t1) := by
  unfold readBlock
  rw [h1]

theorem readBlock_pointer_error (t t1 t2 : Reader) (hb : List Byte) (e : Err)
    (h1 : readFull t 12 = (Except.ok hb, t1))
    (hs : (header.decode hb).Signature = headerSignature)
    (h2 : readFull t1 8 = (Except.error e, t2)) :
    readBlock t = (Except.error e, t2) := by
  have hs2 : ¬ (header.decode hb).Signature ≠ headerSignature := fun h => h hs
  unfold readBlock
  rw [h1]
  simp only [if_neg hs2, h2]

theorem readMany_step (k n : Nat) (r r2 : NcmWrapper) (d : List Byte)
    (h : r.Read k = (Outcome.ret d none, r2)) :
    readMany k (n + 1) r = (d ++ (readMany k n r2).1, (readMany k n r2).2) := by
  rw [readMany, h]

theorem readMany_stop (k n : Nat) (r r2 : NcmWrapper) (d : List Byte) (e : Err)
    (h : r.Read k = (Outcome.ret d (some e), r2)) :
    readMany k n r = ([], r) := by
  cases n with
  | zero => rfl
  | succ n => rw [readMany, h]

/-- C18: when the queue holds fewer bytes than requested and the transport is exhausted, or
its next `Read` fails with `e`, `Read` returns 0 bytes with `io.EOF`, respectively `e`, and
the queued bytes stay where they are.  So bytes can be left undelivered: for the 10-byte
frame `1, ..., 10` written by a fresh wrapper and read back in 4-byte chunks, the calls
deliver 8 bytes, the next call returns `io.EOF`, and 2 bytes remain in the queue however many
further calls are made. -/
theorem Read_leftover_stuck (r : NcmWrapper) (k : Nat) (e : Err) (rest : Reader)
    (hk : r.buf.length < k) :
    (r.targetReader = [] →
      r.Read k = (Outcome.ret [] (some Err.EOF), { r with targetReader := [] })
      ∧ (r.Read k).2.buf = r.buf)
    ∧ (r.targetReader = Event.fail e :: rest →
      r.Read k = (Outcome.ret [] (some e), { r with targetReader := rest })
      ∧ (r.Read k).2.buf = r.buf)
    ∧ (∀ n, (readMany 4 (n + 3)
          (NewWrapper (((NewWrapper [] ⟨[], []⟩).Write
            [1, 2, 3, 4, 5, 6, 7, 8, 9, 10]).2.targetWriter.log.map Event.data) ⟨[], []⟩)).1
          = [1, 2, 3, 4, 5, 6, 7, 8]
        ∧ (readMany 4 (n + 3)
          (NewWrapper (((NewWrapper [] ⟨[], []⟩).Write
            [1, 2, 3, 4, 5, 6, 7, 8, 9, 10]).2.targetWriter.log.map Event.data) ⟨[], []⟩)).2.buf
          = [9, 10]) := by
  refine ⟨?_, ?_, ?_⟩
  · intro ht
    have hb : readBlock r.targetReader = (Except.error Err.EOF, []) := by
      rw [ht]; exact readBlock_header_error [] [] Err.EOF rfl
    have h := Read_of_block_error r k hk _ _ hb
    exact ⟨h, by rw [h]⟩
  · intro ht
    have hb : readBlock r.targetReader = (Except.error e, rest) := by
      rw [ht]
      apply readBlock_header_error
      simp [readFull, readLoop]
    have h := Read_of_block_error r k hk _ _ hb
    exact ⟨h, by rw [h]⟩
  · intro n
    have s1 : (NewWrapper (((NewWrapper [] ⟨[], []⟩).Write
          [1, 2, 3, 4, 5, 6, 7, 8, 9, 10]).2.targetWriter.log.map Event.data) ⟨[], []⟩).Read 4
        = (Outcome.ret [1, 2, 3, 4] none, NcmWrapper.mk [] ⟨[], []⟩ [5, 6, 7, 8, 9, 10] 0) := by
      decide
    have s2 : (NcmWrapper.mk [] ⟨[], []⟩ [5, 6, 7, 8, 9, 10] 0).Read 4
        = (Outcome.ret [5, 6, 7, 8] none, NcmWrapper.mk [] ⟨[], []⟩ [9, 10] 0) := by
      decide
    have s3 : (NcmWrapper.mk [] ⟨[], []⟩ [9, 10] 0).Read 4
        = (Outcome.ret [] (some Err.EOF), NcmWrapper.mk [] ⟨[], []⟩ [9, 10] 0) := by
      decide
    rw [show n + 3 = (n + 2) + 1 from rfl, readMany_step 4 (n + 2) _ _ _ s1,
      show n + 2 = (n + 1) + 1 from rfl, readMany_step 4 (n + 1) _ _ _ s2,
      readMany_stop 4 (n + 1) _ _ _ _ s3]
    exact ⟨rfl, rfl⟩

theorem Read_leftover_stuck_witness :
    ([9, 10] : List Byte).length < 4
    ∧ (NcmWrapper.mk [] ⟨[], []⟩ [9, 10] 0).Read 4
      = (Outcome.ret [] (some Err.EOF), NcmWrapper.mk [] ⟨[], []⟩ [9, 10] 0)
    ∧ (NcmWrapper.mk [Event.fail (Err.transport 5), Event.data [1]] ⟨[], []⟩ [9, 10] 0).Read 4
      = (Outcome.ret [] (some (Err.transport 5)),
          NcmWrapper.mk [Event.data [1]] ⟨[], []⟩ [9, 10] 0) :=
  ⟨by decide,
    ((Read_leftover_stuck (NcmWrapper.mk [] ⟨[], []⟩ [9, 10] 0) 4 Err.EOF []
      (by decide)).1 rfl).1,
    ((Read_leftover_stuck
      (NcmWrapper.mk [Event.fail (Err.transport 5), Event.data [1]] ⟨[], []⟩ [9, 10] 0) 4
      (Err.transport 5) [Event.data [1]] (by decide)).2.1 rfl).1⟩

/-! ## Two frames read in chunks -/

theorem readBlock_writeBuffer_more (s : Nat) (F more : List Byte) (hlen : F.length ≤ 65505)
    (hmore : more ≠ []) (rest : Reader) :
    readBlock (Event.data (writeBuffer s F ++ more) :: rest) =
      (Except.ok
        { h := header.decode (writeHeader s F).encode
          dh := writeDph
          datagrams := writeTable F
          totalHeaderLength := 30
          payload := F }, Event.data more :: rest) := by
  have e1 := readFull_chunk 12 (writeHeader s F).encode
    (writeDph.encode ++ (writeTable F ++ (0 :: 0 :: (F ++ more)))) rest rfl (by omega)
    (by simp [writeDph, datagramPointerHeader.encode, putUint32])
  have e2 := readFull_chunk 8 writeDph.encode (writeTable F ++ (0 :: 0 :: (F ++ more))) rest rfl
    (by omega) (by simp [writeTable, datagram.encode, putUint16])
  have e3 := Read_chunk 8 (writeTable F) (0 :: 0 :: (F ++ more)) rest rfl (by simp)
  have e4 : copyNDiscard (Event.data (0 :: 0 :: (F ++ more)) :: rest) 2
      = ((2, none), Event.data (F ++ more) :: rest) :=
    copyNDiscard_chunk 2 [0, 0] (F ++ more) rest rfl (by omega) (by simp [hmore])
  have e5 := Read_chunk F.length F more rest rfl hmore
  have hd := writeHeader_decode s F hlen
  have hp : sub16 (F.length + 30) 30 = F.length := by unfold sub16; omega
  have hl : (writeTable F).length = 8 := rfl
  have h16 : ¬ ((16 : Nat) = 140) := by omega
  have hm8 : sub16 16 8 = 8 := by unfold sub16; omega
  have h30 : (12 + 16 + 2) % 65536 = 30 := by omega
  have hsplit : writeBuffer s F ++ more = (writeHeader s F).encode
      ++ (writeDph.encode ++ (writeTable F ++ (0 :: 0 :: (F ++ more)))) := by
    rw [writeBuffer_split]
    simp only [List.append_assoc, List.cons_append, List.nil_append]
  rw [hsplit]
  unfold readBlock
  rw [e1]
  simp only [hd, writeDph_decode, e2]
  simp only [writeDph, ne_eq, not_true_eq_false, if_false, ite_false]
  simp only [h16, if_false, hm8, e3, hl, Nat.sub_self, List.replicate_zero, List.append_nil, e4,
    h30, hp, e5, if_true, not_true_eq_false]

theorem Read_writeBuffer_more (r : NcmWrapper) (s k : Nat) (F more : List Byte) (rest : Reader)
    (hlen : F.length ≤ 65505) (hmore : more ≠ []) (hk : r.buf.length < k)
    (ht : r.targetReader = Event.data (writeBuffer s F ++ more) :: rest) :
    r.Read k = serve { r with targetReader := Event.data more :: rest, buf := r.buf ++ F } k := by
  have hb := readBlock_writeBuffer_more s F more hlen hmore rest
  rw [← ht] at hb
  rw [Read_of_block r k hk _ _ hb]
  apply copyAndServe_done
  show copyDatagrams 30 F (datagramTable (writeTable F)) r.buf = (false, r.buf ++ F)
  rw [datagramTable_writeTable F hlen, copyDatagrams_writeTable]

theorem writeBuffer_ne_nil (s : Nat) (p : List Byte) : writeBuffer s p ≠ [] := by
  intro h
  have := writeBuffer_length s p
  rw [h] at this
  simp at this

theorem Read_of_long_queue (r : NcmWrapper) (k : Nat) (hk : k ≤ r.buf.length) :
    r.Read k = serve r k := by
  unfold NcmWrapper.Read
  rw [if_pos hk]

/-- What a successful `serve` tells: the bytes delivered followed by the queue left are the
queue before, and the rest of the wrapper is unchanged. -/
theorem serve_ok (r r2 : NcmWrapper) (k : Nat) (d : List Byte)
    (h : serve r k = (Outcome.ret d none, r2)) :
    d ++ r2.buf = r.buf ∧ r2.targetReader = r.targetReader ∧ d = r.buf.take k
      ∧ r2.buf = r.buf.drop k := by
  obtain ⟨e, he, -, -⟩ := serve_eq r k
  rw [he] at h
  obtain ⟨h1, h2⟩ := Prod.mk.inj h
  obtain ⟨hd, -⟩ := Outcome.ret.inj h1
  subst hd
  subst h2
  exact ⟨List.take_append_drop k r.buf, rfl, rfl, rfl⟩

theorem TwoFrameInv_step (F1 F2 : List Byte) (s1 s2 k : Nat) (t0 : Reader)
    (hF1 : F1 ≠ []) (hF2 : F2 ≠ []) (hl1 : F1.length ≤ 65505) (hl2 : F2.length ≤ 65505)
    (hk : 1 ≤ k)
    (ht : t0 = [Event.data (writeBuffer s1 F1 ++ writeBuffer s2 F2)]
      ∨ t0 = [Event.data (writeBuffer s1 F1), Event.data (writeBuffer s2 F2)])
    (D d : List Byte) (r r2 : NcmWrapper)
    (hinv : TwoFrameInv t0 (writeBuffer s2 F2) F1 F2 D r)
    (hres : r.Read k = (Outcome.ret d none, r2)) :
    TwoFrameInv t0 (writeBuffer s2 F2) F1 F2 (D ++ d) r2 := by
  by_cases hq : k ≤ r.buf.length
  · rw [Read_of_long_queue r k hq] at hres
    obtain ⟨hsum, hrd, -, -⟩ := serve_ok r r2 k d hres
    rcases hinv with ⟨-, -, hb⟩ | ⟨ht1, hD⟩ | ⟨ht2, hD⟩
    · rw [hb] at hq
      simp at hq
      omega
    · right; left
      exact ⟨by rw [hrd, ht1], by rw [List.append_assoc D d, hsum]; exact hD⟩
    · right; right
      exact ⟨by rw [hrd, ht2], by rw [List.append_assoc D d, hsum]; exact hD⟩
  · have hq2 : r.buf.length < k := by omega
    rcases hinv with ⟨ht0, hD, hb⟩ | ⟨ht1, hD⟩ | ⟨ht2, hD⟩
    · have hread : r.Read k =
          serve { r with targetReader := [Event.data (writeBuffer s2 F2)], buf := r.buf ++ F1 }
            k := by
        rcases ht with h | h
        · exact Read_writeBuffer_more r s1 k F1 (writeBuffer s2 F2) [] hl1
            (writeBuffer_ne_nil s2 F2) hq2 (by rw [ht0, h])
        · exact Read_writeBuffer r s1 k F1 [Event.data (writeBuffer s2 F2)] hF1 hl1 hq2
            (by rw [ht0, h])
      rw [hread] at hres
      obtain ⟨hsum, hrd, -, -⟩ := serve_ok _ r2 k d hres
      right; left
      refine ⟨hrd, ?_⟩
      rw [hD, List.nil_append, hsum]
      show (r.buf ++ F1) ++ F2 = F1 ++ F2
      rw [hb, List.nil_append]
    · have hread : r.Read k = serve { r with targetReader := [], buf := r.buf ++ F2 } k :=
        Read_writeBuffer r s2 k F2 [] hF2 hl2 hq2 ht1
      rw [hread] at hres
      obtain ⟨hsum, hrd, -, -⟩ := serve_ok _ r2 k d hres
      right; right
      refine ⟨hrd, ?_⟩
      rw [List.append_assoc D d, hsum]
      show D ++ (r.buf ++ F2) = F1 ++ F2
      rw [← List.append_assoc]
      exact hD
    · have hb : readBlock r.targetReader = (Except.error Err.EOF, []) := by
        rw [ht2]; exact readBlock_header_error [] [] Err.EOF rfl
      rw [Read_of_block_error r k hq2 _ _ hb] at hres
      simp at hres

theorem TwoFrameInv_rest (t0 : Reader) (w2 F1 F2 D : List Byte) (r : NcmWrapper)
    (hinv : TwoFrameInv t0 w2 F1 F2 D r) : ∃ rest, D ++ rest = F1 ++ F2 := by
  rcases hinv with ⟨-, hD, -⟩ | ⟨-, hD⟩ | ⟨-, hD⟩
  · exact ⟨F1 ++ F2, by rw [hD, List.nil_append]⟩
  · exact ⟨r.buf ++ F2, by rw [← List.append_assoc]; exact hD⟩
  · exact ⟨r.buf, hD⟩

theorem readMany_two_frames (F1 F2 : List Byte) (s1 s2 k : Nat) (t0 : Reader)
    (hF1 : F1 ≠ []) (hF2 : F2 ≠ []) (hl1 : F1.length ≤ 65505) (hl2 : F2.length ≤ 65505)
    (hk : 1 ≤ k)
    (ht : t0 = [Event.data (writeBuffer s1 F1 ++ writeBuffer s2 F2)]
      ∨ t0 = [Event.data (writeBuffer s1 F1), Event.data (writeBuffer s2 F2)]) :
    ∀ (n : Nat) (D : List Byte) (r : NcmWrapper),
      TwoFrameInv t0 (writeBuffer s2 F2) F1 F2 D r →
      ∃ rest, D ++ (readMany k n r).1 ++ rest = F1 ++ F2 := by
  intro n
  induction n with
  | zero =>
    intro D r hinv
    obtain ⟨rest, h⟩ := TwoFrameInv_rest _ _ _ _ _ _ hinv
    exact ⟨rest, by rw [readMany, List.append_nil]; exact h⟩
  | succ n ih =>
    intro D r hinv
    rcases hres : r.Read k with ⟨o, r2⟩
    cases o with
    | panic =>
      obtain ⟨rest, h⟩ := TwoFrameInv_rest _ _ _ _ _ _ hinv
      exact ⟨rest, by rw [readMany, hres, List.append_nil]; exact h⟩
    | ret d eo =>
      cases eo with
      | some e =>
        obtain ⟨rest, h⟩ := TwoFrameInv_rest _ _ _ _ _ _ hinv
        exact ⟨rest, by rw [readMany, hres, List.append_nil]; exact h⟩
      | none =>
        obtain ⟨rest, h⟩ := ih (D ++ d) r2
          (TwoFrameInv_step F1 F2 s1 s2 k t0 hF1 hF2 hl1 hl2 hk ht D d r r2 hinv hres)
        exact ⟨rest, by rw [readMany_step k n r r2 d hres, ← List.append_assoc D d]; exact h⟩

theorem writeAll_two_log (tr0 : Reader) (sc : List (Option Err)) (F1 F2 : List Byte) :
    (writeAll (NewWrapper tr0 ⟨[], sc⟩) [F1, F2]).targetWriter.log
      = [writeBuffer 0 F1, writeBuffer 1 F2] := by
  rw [writeAll_log]
  rfl

/-- C14 (as amended): let a fresh wrapper `Write` two non-empty frames `F1`, `F2` of at most
65505 bytes each, and let the two buffers it emitted be the whole inbound transport of a
wrapper with an empty queue, delivered either joined in one chunk or as one chunk per
`Write`, so that every `Read` on the transport returns all the bytes asked for.  For every
chunk size `k ≥ 1` and every number `n` of `Read` calls with a `k`-byte destination, the bytes
delivered by the successful calls (up to the first call that fails) are a prefix of
`F1 ++ F2`.  In particular a `Read` issued while the queue is shorter than `k` and the
transport holds the encoding of `F2` returns the queued bytes followed by the first
`min (k - r) (len F2)` bytes of `F2`. -/
theorem Read_two_frames_in_order (F1 F2 : List Byte) (k : Nat) (tr0 : Reader)
    (sc : List (Option Err)) (tw : Writer) (t0 : Reader)
    (hF1 : F1 ≠ []) (hF2 : F2 ≠ []) (hl1 : F1.length ≤ 65505) (hl2 : F2.length ≤ 65505)
    (hk : 1 ≤ k)
    (ht : t0 = [Event.data (writeAll (NewWrapper tr0 ⟨[], sc⟩) [F1, F2]).targetWriter.log.flatten]
      ∨ t0 = (writeAll (NewWrapper tr0 ⟨[], sc⟩) [F1, F2]).targetWriter.log.map Event.data) :
    (∀ n, ∃ rest, (readMany k n (NewWrapper t0 tw)).1 ++ rest = F1 ++ F2)
    ∧ (∀ r : NcmWrapper, r.buf.length < k →
        r.targetReader = [Event.data
          ((writeAll (NewWrapper tr0 ⟨[], sc⟩) [F1, F2]).targetWriter.log.getD 1 [])] →
        r.Read k = (Outcome.ret (r.buf ++ F2.take (k - r.buf.length)) none,
            { r with targetReader := [], buf := F2.drop (k - r.buf.length) })
        ∧ (F2.take (k - r.buf.length)).length = min (k - r.buf.length) F2.length) := by
  rw [writeAll_two_log] at ht ⊢
  have ht2 : t0 = [Event.data (writeBuffer 0 F1 ++ writeBuffer 1 F2)]
      ∨ t0 = [Event.data (writeBuffer 0 F1), Event.data (writeBuffer 1 F2)] := by
    rcases ht with h | h
    · left; rw [h]; simp
    · right; rw [h]; rfl
  constructor
  · intro n
    obtain ⟨rest, h⟩ := readMany_two_frames F1 F2 0 1 k t0 hF1 hF2 hl1 hl2 hk ht2 n []
      (NewWrapper t0 tw) (Or.inl ⟨rfl, rfl, rfl⟩)
    exact ⟨rest, by rw [List.nil_append] at h; exact h⟩
  · intro r hq hr
    have hr2 : r.targetReader = Event.data (writeBuffer 1 F2) :: [] := hr
    rw [Read_writeBuffer r 1 k F2 [] hF2 hl2 hq hr2]
    obtain ⟨e, he, h1, -⟩ := serve_eq { r with targetReader := [], buf := r.buf ++ F2 } k
    have hne : r.buf ++ F2 ≠ [] := by simp [hF2]
    rw [he, h1 hne]
    refine ⟨?_, List.length_take _ _⟩
    have htake : (r.buf ++ F2).take k = r.buf ++ F2.take (k - r.buf.length) := by
      rw [List.take_append_eq_append_take, List.take_of_length_le (Nat.le_of_lt hq)]
    have hdrop : (r.buf ++ F2).drop k = F2.drop (k - r.buf.length) := by
      rw [List.drop_append_eq_append_drop, List.drop_of_length_le (Nat.le_of_lt hq),
        List.nil_append]
    show (Outcome.ret ((r.buf ++ F2).take k) none,
        NcmWrapper.mk [] r.targetWriter ((r.buf ++ F2).drop k) r.sequenceNum) = _
    rw [htake, hdrop]

theorem Read_two_frames_in_order_witness :
    ∃ rest, (readMany 2 3 (NewWrapper
        ((writeAll (NewWrapper [] ⟨[], []⟩) [[1, 2, 3], [4, 5]]).targetWriter.log.map Event.data)
        ⟨[], []⟩)).1 ++ rest = [1, 2, 3] ++ [4, 5] :=
  (Read_two_frames_in_order [1, 2, 3] [4, 5] 2 [] [] ⟨[], []⟩
    ((writeAll (NewWrapper [] ⟨[], []⟩) [[1, 2, 3], [4, 5]]).targetWriter.log.map Event.data)
    (by decide) (by decide) (by decide) (by decide) (by decide) (Or.inr rfl)).1 3

/-- C14 (the claim as stated fails): the frames `[1, 2, 3, 4]` and `[5, 6]` are written by a
fresh wrapper and the bytes of the two buffers, in order, are the inbound transport, which
delivers them in two chunks cut after byte 24, in the middle of the first pointer table.
`Read` with a 4-byte destination reads the header (12 bytes) and the NDP header (8 bytes);
the single transport `Read` for the 8-byte table gets only the 4 bytes left in the first
chunk, its count is dropped, and the table is taken to be `30, 0, 4, 0, 0, 0, 0, 0`; the two
bytes skipped and the 4 payload bytes read next are the 4 bytes of the terminator entry and
the 2 padding bytes.  The call succeeds and delivers `[0, 0, 0, 0]`, which is no prefix of
`[1, 2, 3, 4] ++ [5, 6]`. -/
theorem Read_two_frames_rechunked :
    streamBytes
        [Event.data ((writeAll (NewWrapper [] ⟨[], []⟩)
            [[1, 2, 3, 4], [5, 6]]).targetWriter.log.flatten.take 24),
          Event.data ((writeAll (NewWrapper [] ⟨[], []⟩)
            [[1, 2, 3, 4], [5, 6]]).targetWriter.log.flatten.drop 24)]
      = (writeAll (NewWrapper [] ⟨[], []⟩) [[1, 2, 3, 4], [5, 6]]).targetWriter.log.flatten
    ∧ ((NewWrapper
        [Event.data ((writeAll (NewWrapper [] ⟨[], []⟩)
            [[1, 2, 3, 4], [5, 6]]).targetWriter.log.flatten.take 24),
          Event.data ((writeAll (NewWrapper [] ⟨[], []⟩)
            [[1, 2, 3, 4], [5, 6]]).targetWriter.log.flatten.drop 24)]
        ⟨[], []⟩).Read 4).1 = Outcome.ret [0, 0, 0, 0] none
    ∧ (readMany 4 1 (NewWrapper
        [Event.data ((writeAll (NewWrapper [] ⟨[], []⟩)
            [[1, 2, 3, 4], [5, 6]]).targetWriter.log.flatten.take 24),
          Event.data ((writeAll (NewWrapper [] ⟨[], []⟩)
            [[1, 2, 3, 4], [5, 6]]).targetWriter.log.flatten.drop 24)]
        ⟨[], []⟩)).1 = [0, 0, 0, 0]
    ∧ ¬ ∃ rest : List Byte, [0, 0, 0, 0] ++ rest = [1, 2, 3, 4] ++ [5, 6] := by
  refine ⟨by decide, by decide, by decide, ?_⟩
  rintro ⟨rest, h⟩
  exact absurd (List.cons.inj h).1 (by decide)

/-! ## Streams that agree outside a set of positions -/

theorem bytesAgree_cons (S : List Nat) (pos : Nat) (x y : Byte) (xs ys : List Byte) :
    bytesAgree S pos (x :: xs) (y :: ys) = true
      ↔ (pos ∈ S ∨ x = y) ∧ bytesAgree S (pos + 1) xs ys = true := by
  simp [bytesAgree]

theorem bytesAgree_refl (S : List Nat) (a : List Byte) :
    ∀ pos, bytesAgree S pos a a = true := by
  induction a with
  | nil => intro pos; rfl
  | cons x xs ih => intro pos; rw [bytesAgree_cons]; exact ⟨Or.inr rfl, ih _⟩

theorem bytesAgree_length (S : List Nat) (a : List Byte) :
    ∀ (b : List Byte) (pos : Nat), bytesAgree S pos a b = true → a.length = b.length := by
  induction a with
  | nil =>
    intro b pos h
    cases b with
    | nil => rfl
    | cons y ys => simp [bytesAgree] at h
  | cons x xs ih =>
    intro b pos h
    cases b with
    | nil => simp [bytesAgree] at h
    | cons y ys =>
      rw [bytesAgree_cons] at h
      rw [List.length_cons, List.length_cons, ih ys _ h.2]

theorem bytesAgree_take (S : List Nat) (a : List Byte) :
    ∀ (b : List Byte) (pos n : Nat), bytesAgree S pos a b = true →
      bytesAgree S pos (a.take n) (b.take n) = true := by
  induction a with
  | nil =>
    intro b pos n h
    cases b with
    | nil => simp [bytesAgree]
    | cons y ys => simp [bytesAgree] at h
  | cons x xs ih =>
    intro b pos n h
    cases b with
    | nil => simp [bytesAgree] at h
    | cons y ys =>
      rw [bytesAgree_cons] at h
      cases n with
      | zero => rfl
      | succ n =>
        rw [List.take_succ_cons, List.take_succ_cons, bytesAgree_cons]
        exact ⟨h.1, ih ys _ n h.2⟩

theorem bytesAgree_drop (S : List Nat) (a : List Byte) :
    ∀ (b : List Byte) (pos n : Nat), n ≤ a.length → bytesAgree S pos a b = true →
      bytesAgree S (pos + n) (a.drop n) (b.drop n) = true := by
  induction a with
  | nil =>
    intro b pos n hn h
    cases b with
    | nil => simp [bytesAgree]
    | cons y ys => simp [bytesAgree] at h
  | cons x xs ih =>
    intro b pos n hn h
    cases b with
    | nil => simp [bytesAgree] at h
    | cons y ys =>
      cases n with
      | zero => exact h
      | succ n =>
        rw [bytesAgree_cons] at h
        rw [List.drop_succ_cons, List.drop_succ_cons,
          show pos + (n + 1) = (pos + 1) + n by omega]
        exact ih ys _ n (by simpa using hn) h.2

theorem bytesAgree_append (S : List Nat) (a : List Byte) :
    ∀ (b c d : List Byte) (pos : Nat), bytesAgree S pos a b = true →
      bytesAgree S (pos + a.length) c d = true → bytesAgree S pos (a ++ c) (b ++ d) = true := by
  induction a with
  | nil =>
    intro b c d pos h h2
    cases b with
    | nil => simpa using h2
    | cons y ys => simp [bytesAgree] at h
  | cons x xs ih =>
    intro b c d pos h h2
    cases b with
    | nil => simp [bytesAgree] at h
    | cons y ys =>
      rw [bytesAgree_cons] at h
      rw [List.cons_append, List.cons_append, bytesAgree_cons]
      refine ⟨h.1, ih ys c d _ h.2 ?_⟩
      rw [List.length_cons] at h2
      rw [show pos + 1 + xs.length = pos + (xs.length + 1) by omega]
      exact h2

theorem bytesAgree_getD (S : List Nat) (a : List Byte) :
    ∀ (b : List Byte) (pos i : Nat), bytesAgree S pos a b = true → pos + i ∉ S →
      a.getD i 0 = b.getD i 0 := by
  induction a with
  | nil =>
    intro b pos i h _
    cases b with
    | nil => rfl
    | cons y ys => simp [bytesAgree] at h
  | cons x xs ih =>
    intro b pos i h hi
    cases b with
    | nil => simp [bytesAgree] at h
    | cons y ys =>
      rw [bytesAgree_cons] at h
      cases i with
      | zero =>
        rw [List.getD_cons_zero, List.getD_cons_zero]
        rcases h.1 with hm | he
        · exact absurd hm (by simpa using hi)
        · exact he
      | succ i =>
        rw [List.getD_cons_succ, List.getD_cons_succ]
        exact ih ys _ i h.2 (by rw [show pos + 1 + i = pos + (i + 1) by omega]; exact hi)

theorem bytesAgree_eq (S : List Nat) (a : List Byte) :
    ∀ (b : List Byte) (pos : Nat), (∀ p ∈ S, p < pos) → bytesAgree S pos a b = true → a = b := by
  induction a with
  | nil =>
    intro b pos _ h
    cases b with
    | nil => rfl
    | cons y ys => simp [bytesAgree] at h
  | cons x xs ih =>
    intro b pos hS h
    cases b with
    | nil => simp [bytesAgree] at h
    | cons y ys =>
      rw [bytesAgree_cons] at h
      have hxy : x = y := by
        rcases h.1 with hm | he
        · exact absurd (hS pos hm) (Nat.lt_irrefl _)
        · exact he
      rw [hxy, ih ys (pos + 1) (fun p hp => Nat.lt_succ_of_lt (hS p hp)) h.2]

theorem readersAgree_data (S : List Nat) (pos : Nat) (a b : List Byte) (ra rb : Reader) :
    readersAgree S pos (Event.data a :: ra) (Event.data b :: rb) = true
      ↔ bytesAgree S pos a b = true ∧ readersAgree S (pos + a.length) ra rb = true := by
  simp [readersAgree]

theorem readersAgree_fail (S : List Nat) (pos : Nat) (e e2 : Err) (ra rb : Reader) :
    readersAgree S pos (Event.fail e :: ra) (Event.fail e2 :: rb) = true
      ↔ e = e2 ∧ readersAgree S pos ra rb = true := by
  simp [readersAgree]

/-- The three shapes of a pair of transports that agree. -/
theorem readersAgree_cases (S : List Nat) (pos : Nat) (tA tB : Reader)
    (h : readersAgree S pos tA tB = true) :
    (tA = [] ∧ tB = [])
    ∨ (∃ e ra rb, tA = Event.fail e :: ra ∧ tB = Event.fail e :: rb
        ∧ readersAgree S pos ra rb = true)
    ∨ (∃ a b ra rb, tA = Event.data a :: ra ∧ tB = Event.data b :: rb
        ∧ bytesAgree S pos a b = true ∧ a.length = b.length
        ∧ readersAgree S (pos + a.length) ra rb = true) := by
  rcases tA with _ | ⟨evA, ra⟩ <;> rcases tB with _ | ⟨evB, rb⟩
  · exact Or.inl ⟨rfl, rfl⟩
  · simp [readersAgree] at h
  · cases evA <;> simp [readersAgree] at h
  · cases evA with
    | data a =>
      cases evB with
      | data b =>
        rw [readersAgree_data] at h
        exact Or.inr (Or.inr ⟨a, b, ra, rb, rfl, rfl, h.1, bytesAgree_length S a b pos h.1, h.2⟩)
      | fail e2 => simp [readersAgree] at h
    | fail e =>
      cases evB with
      | data b => simp [readersAgree] at h
      | fail e2 =>
        rw [readersAgree_fail] at h
        obtain ⟨he, h2⟩ := h
        subst he
        exact Or.inr (Or.inl ⟨e, ra, rb, rfl, rfl, h2⟩)

theorem readersAgree_refl (S : List Nat) (t : Reader) :
    ∀ pos, readersAgree S pos t t = true := by
  induction t with
  | nil => intro pos; rfl
  | cons ev rest ih =>
    intro pos
    cases ev with
    | data a => rw [readersAgree_data]; exact ⟨bytesAgree_refl S a pos, ih _⟩
    | fail e => rw [readersAgree_fail]; exact ⟨rfl, ih _⟩

theorem readersAgree_eq (S : List Nat) (tA : Reader) :
    ∀ (tB : Reader) (pos : Nat), (∀ p ∈ S, p < pos) → readersAgree S pos tA tB = true →
      tA = tB := by
  induction tA with
  | nil =>
    intro tB pos _ h
    rcases readersAgree_cases S pos [] tB h with ⟨-, h2⟩ | ⟨e, ra, rb, h1, -⟩ | ⟨a, b, ra, rb, h1, -⟩
    · exact h2.symm
    · simp at h1
    · simp at h1
  | cons ev rest ih =>
    intro tB pos hS h
    rcases readersAgree_cases S pos _ tB h with ⟨h1, -⟩ | ⟨e, ra, rb, h1, h2, h3⟩
      | ⟨a, b, ra, rb, h1, h2, h3, -, h5⟩
    · simp at h1
    · obtain ⟨hev, hrest⟩ := List.cons.inj h1
      subst hev; subst hrest
      rw [h2, ih rb pos hS h3]
    · obtain ⟨hev, hrest⟩ := List.cons.inj h1
      subst hev; subst hrest
      rw [h2, bytesAgree_eq S a b pos hS h3,
        ih rb (pos + a.length) (fun p hp => Nat.lt_of_lt_of_le (hS p hp) (Nat.le_add_right _ _)) h5]

theorem readersAgree_stream_length (S : List Nat) (tA : Reader) :
    ∀ (tB : Reader) (pos : Nat), readersAgree S pos tA tB = true →
      (streamBytes tA).length = (streamBytes tB).length := by
  induction tA with
  | nil =>
    intro tB pos h
    rcases readersAgree_cases S pos [] tB h with ⟨-, h2⟩ | ⟨e, ra, rb, h1, -⟩ | ⟨a, b, ra, rb, h1, -⟩
    · rw [h2]
    · simp at h1
    · simp at h1
  | cons ev rest ih =>
    intro tB pos h
    rcases readersAgree_cases S pos _ tB h with ⟨h1, -⟩ | ⟨e, ra, rb, h1, h2, h3⟩
      | ⟨a, b, ra, rb, h1, h2, h3, h4, h5⟩
    · simp at h1
    · obtain ⟨hev, hrest⟩ := List.cons.inj h1
      subst hev; subst hrest
      rw [h2]
      simp only [streamBytes]
      exact ih rb pos h3
    · obtain ⟨hev, hrest⟩ := List.cons.inj h1
      subst hev; subst hrest
      rw [h2]
      simp only [streamBytes, List.length_append]
      rw [h4, ih rb _ h5]

theorem readLoop_agree (S : List Nat) (tA : Reader) :
    ∀ (tB : Reader) (pos0 : Nat) (gotA gotB : List Byte) (need : Nat),
      bytesAgree S pos0 gotA gotB = true →
      readersAgree S (pos0 + gotA.length) tA tB = true →
      (∃ e tA2 tB2 p, readLoop tA gotA need = (Except.error e, tA2)
          ∧ readLoop tB gotB need = (Except.error e, tB2)
          ∧ readersAgree S p tA2 tB2 = true)
      ∨ (∃ bsA bsB tA2 tB2, readLoop tA gotA need = (Except.ok bsA, tA2)
          ∧ readLoop tB gotB need = (Except.ok bsB, tB2)
          ∧ bytesAgree S pos0 bsA bsB = true
          ∧ readersAgree S (pos0 + bsA.length) tA2 tB2 = true) := by
  induction tA with
  | nil =>
    intro tB pos0 gotA gotB need hg h
    rcases readersAgree_cases S _ [] tB h with ⟨-, h2⟩ | ⟨e, ra, rb, h1, -⟩
      | ⟨a, b, ra, rb, h1, -⟩
    · subst h2
      left
      have hl := bytesAgree_length S gotA gotB pos0 hg
      have hiff : gotA = [] ↔ gotB = [] := by
        rw [← List.length_eq_zero, ← List.length_eq_zero (l := gotB), hl]
      refine ⟨if gotA = [] then Err.EOF else Err.ErrUnexpectedEOF, [], [], 0, rfl, ?_, rfl⟩
      simp only [readLoop, hiff]
    · simp at h1
    · simp at h1
  | cons ev rest ih =>
    intro tB pos0 gotA gotB need hg h
    have hl := bytesAgree_length S gotA gotB pos0 hg
    rcases readersAgree_cases S _ _ tB h with ⟨h1, -⟩ | ⟨e, ra, rb, h1, h2, h3⟩
      | ⟨a, b, ra, rb, h1, h2, h3, h4, h5⟩
    · simp at h1
    · obtain ⟨hev, hrest⟩ := List.cons.inj h1
      subst hev; subst hrest; subst h2
      left
      have hiff : gotA ≠ [] ↔ gotB ≠ [] := by
        rw [Ne, Ne, ← List.length_eq_zero, ← List.length_eq_zero (l := gotB), hl]
      refine ⟨if e = Err.EOF ∧ gotA ≠ [] then Err.ErrUnexpectedEOF else e, rest, rb, _, rfl, ?_, h3⟩
      simp only [readLoop, hiff]
    · obtain ⟨hev, hrest⟩ := List.cons.inj h1
      subst hev; subst hrest; subst h2
      by_cases hn1 : need < a.length
      · right
        have hn1b : need < b.length := by rw [← h4]; exact hn1
        refine ⟨gotA ++ a.take need, gotB ++ b.take need, Event.data (a.drop need) :: rest,
          Event.data (b.drop need) :: rb, by rw [readLoop, if_pos hn1],
          by rw [readLoop, if_pos hn1b], ?_, ?_⟩
        · exact bytesAgree_append S gotA gotB _ _ pos0 hg (bytesAgree_take S a b _ need h3)
        · rw [readersAgree_data]
          have hlen : (gotA ++ a.take need).length = gotA.length + need := by
            rw [List.length_append, List.length_take, Nat.min_eq_left (Nat.le_of_lt hn1)]
          have hdl : (a.drop need).length = a.length - need := List.length_drop _ _
          rw [hlen, ← Nat.add_assoc, hdl]
          refine ⟨bytesAgree_drop S a b _ need (Nat.le_of_lt hn1) h3, ?_⟩
          rw [show pos0 + gotA.length + need + (a.length - need)
            = pos0 + gotA.length + a.length by omega]
          exact h5
      · by_cases hn2 : need = a.length
        · right
          have hn1b : ¬ need < b.length := by rw [← h4]; exact hn1
          have hn2b : need = b.length := by rw [← h4]; exact hn2
          refine ⟨gotA ++ a, gotB ++ b, rest, rb,
            by rw [readLoop, if_neg hn1, if_pos hn2],
            by rw [readLoop, if_neg hn1b, if_pos hn2b], ?_, ?_⟩
          · exact bytesAgree_append S gotA gotB _ _ pos0 hg h3
          · rw [List.length_append, ← Nat.add_assoc]
            exact h5
        · have hn1b : ¬ need < b.length := by rw [← h4]; exact hn1
          have hn2b : ¬ need = b.length := by rw [← h4]; exact hn2
          have hrec := ih rb pos0 (gotA ++ a) (gotB ++ b) (need - a.length)
            (bytesAgree_append S gotA gotB _ _ pos0 hg h3)
            (by rw [List.length_append, ← Nat.add_assoc]; exact h5)
          have eA : readLoop (Event.data a :: rest) gotA need
              = readLoop rest (gotA ++ a) (need - a.length) := by
            rw [readLoop, if_neg hn1, if_neg hn2]
          have eB : readLoop (Event.data b :: rb) gotB need
              = readLoop rb (gotB ++ b) (need - a.length) := by
            rw [readLoop, if_neg hn1b, if_neg hn2b, h4]
          rw [eA, eB]
          exact hrec

theorem readFull_agree (S : List Nat) (tA tB : Reader) (pos n : Nat)
    (h : readersAgree S pos tA tB = true) :
    (∃ e tA2 tB2 p, readFull tA n = (Except.error e, tA2)
        ∧ readFull tB n = (Except.error e, tB2) ∧ readersAgree S p tA2 tB2 = true)
    ∨ (∃ bsA bsB tA2 tB2, readFull tA n = (Except.ok bsA, tA2)
        ∧ readFull tB n = (Except.ok bsB, tB2)
        ∧ bytesAgree S pos bsA bsB = true
        ∧ readersAgree S (pos + n) tA2 tB2 = true) := by
  by_cases h0 : n = 0
  · right
    subst h0
    exact ⟨[], [], tA, tB, rfl, rfl, rfl, h⟩
  · rcases readLoop_agree S tA tB pos [] [] n rfl h with
      ⟨e, tA2, tB2, p, hA, hB, hr⟩ | ⟨bsA, bsB, tA2, tB2, hA, hB, hb, hr⟩
    · left
      exact ⟨e, tA2, tB2, p, by rw [readFull, if_neg h0]; exact hA,
        by rw [readFull, if_neg h0]; exact hB, hr⟩
    · right
      have hlen : bsA.length = n := by
        have := readLoop_length tA [] n bsA tA2 hA
        rw [this, List.length_nil, Nat.zero_add]
      rw [hlen] at hr
      exact ⟨bsA, bsB, tA2, tB2, by rw [readFull, if_neg h0]; exact hA,
        by rw [readFull, if_neg h0]; exact hB, hb, hr⟩

theorem readLoop_stream (t : Reader) :
    ∀ (got : List Byte) (need : Nat) (bs : List Byte) (t2 : Reader),
      readLoop t got need = (Except.ok bs, t2) →
      got ++ streamBytes t = bs ++ streamBytes t2 := by
  induction t with
  | nil => intro got need bs t2 h; simp [readLoop] at h
  | cons ev rest ih =>
    intro got need bs t2 h
    cases ev with
    | fail e => simp [readLoop] at h
    | data cs =>
      rw [readLoop] at h
      by_cases h1 : need < cs.length
      · rw [if_pos h1] at h
        obtain ⟨hb, ht⟩ := Prod.mk.inj h
        have hb2 := Except.ok.inj hb
        subst hb2; subst ht
        simp only [streamBytes, List.append_assoc]
        rw [← List.append_assoc (cs.take need), List.take_append_drop]
      · rw [if_neg h1] at h
        by_cases h2 : need = cs.length
        · rw [if_pos h2] at h
          obtain ⟨hb, ht⟩ := Prod.mk.inj h
          have hb2 := Except.ok.inj hb
          subst hb2; subst ht
          simp only [streamBytes, List.append_assoc]
        · rw [if_neg h2] at h
          have := ih _ _ _ _ h
          simp only [streamBytes]
          rw [← List.append_assoc]
          exact this

/-- A successful `io.ReadFull` returns the next bytes of the stream. -/
theorem readFull_stream (t t2 : Reader) (n : Nat) (bs : List Byte)
    (h : readFull t n = (Except.ok bs, t2)) : streamBytes t = bs ++ streamBytes t2 := by
  unfold readFull at h
  by_cases h0 : n = 0
  · rw [if_pos h0] at h
    obtain ⟨hb, ht⟩ := Prod.mk.inj h
    have hb2 := Except.ok.inj hb
    subst hb2; subst ht
    rfl
  · rw [if_neg h0] at h
    have := readLoop_stream t [] n bs t2 h
    rw [List.nil_append] at this
    exact this

/-! ## `Read` on two streams that agree outside a set of positions -/

theorem ReadsAgree_of_eq (S : List Nat) (x y : Outcome × NcmWrapper) (h : x = y) :
    ReadsAgree S x y := by
  subst h
  exact ⟨rfl, rfl, rfl, rfl, 0, readersAgree_refl S _ 0⟩

theorem serve_agree (S : List Nat) (rA rB : NcmWrapper) (k p : Nat)
    (hbuf : rA.buf = rB.buf) (hw : rA.targetWriter = rB.targetWriter)
    (hseq : rA.sequenceNum = rB.sequenceNum)
    (h : readersAgree S p rA.targetReader rB.targetReader = true) :
    ReadsAgree S (serve rA k) (serve rB k) := by
  unfold serve
  rw [hbuf]
  exact ⟨rfl, rfl, hw, hseq, p, h⟩

theorem error_agree (S : List Nat) (rA rB : NcmWrapper) (e : Err) (tA tB : Reader) (p : Nat)
    (hbuf : rA.buf = rB.buf) (hw : rA.targetWriter = rB.targetWriter)
    (hseq : rA.sequenceNum = rB.sequenceNum)
    (h : readersAgree S p tA tB = true) :
    ReadsAgree S (Outcome.ret [] (some e), { rA with targetReader := tA })
      (Outcome.ret [] (some e), { rB with targetReader := tB }) :=
  ⟨rfl, hbuf, hw, hseq, p, h⟩

theorem copyAndServe_same (rA rB : NcmWrapper) (k : Nat) (bA bB : Block) (t : Reader)
    (hbuf : rA.buf = rB.buf) (hw : rA.targetWriter = rB.targetWriter)
    (hseq : rA.sequenceNum = rB.sequenceNum)
    (h1 : bA.totalHeaderLength = bB.totalHeaderLength) (h2 : bA.payload = bB.payload)
    (h3 : bA.datagrams = bB.datagrams) :
    copyAndServe rA k bA t = copyAndServe rB k bB t := by
  unfold copyAndServe
  rw [h1, h2, h3, hbuf, hw, hseq]

theorem Read_agree_general (S : List Nat) (rA rB : NcmWrapper) (k : Nat)
    (hbuf : rA.buf = rB.buf) (hw : rA.targetWriter = rB.targetWriter)
    (hseq : rA.sequenceNum = rB.sequenceNum)
    (hS : ∀ p ∈ S, p < 20)
    (h : readersAgree S 0 rA.targetReader rB.targetReader = true)
    (cH : ∀ hbA hbB : List Byte, bytesAgree S 0 hbA hbB = true →
      (header.decode hbA).Signature = (header.decode hbB).Signature
      ∧ (header.decode hbA).HeaderLen = (header.decode hbB).HeaderLen
      ∧ (header.decode hbA).BlockLen = (header.decode hbB).BlockLen)
    (cD : ∀ (hbA hbB dbA dbB : List Byte) (ta tb ta2 tb2 : Reader),
      readFull rA.targetReader 12 = (Except.ok hbA, ta) →
      readFull rB.targetReader 12 = (Except.ok hbB, tb) →
      readFull ta 8 = (Except.ok dbA, ta2) → readFull tb 8 = (Except.ok dbB, tb2) →
      bytesAgree S 12 dbA dbB = true →
      (datagramPointerHeader.decode dbA).Signature = (datagramPointerHeader.decode dbB).Signature
      ∧ (fixLength (datagramPointerHeader.decode dbA)).Length
          = (fixLength (datagramPointerHeader.decode dbB)).Length) :
    ReadsAgree S (rA.Read k) (rB.Read k) := by
  by_cases hq : k ≤ rA.buf.length
  · rw [Read_of_long_queue rA k hq, Read_of_long_queue rB k (hbuf ▸ hq)]
    exact serve_agree S rA rB k 0 hbuf hw hseq h
  have hqA : rA.buf.length < k := by omega
  have hqB : rB.buf.length < k := hbuf ▸ hqA
  rcases readFull_agree S _ _ 0 12 h with
    ⟨e, tA2, tB2, p, hA, hB, hr⟩ | ⟨hbA, hbB, ta, tb, hA, hB, hb, hr⟩
  · rw [Read_of_block_error rA k hqA e tA2 (readBlock_header_error _ _ _ hA),
      Read_of_block_error rB k hqB e tB2 (readBlock_header_error _ _ _ hB)]
    exact error_agree S rA rB e tA2 tB2 p hbuf hw hseq hr
  obtain ⟨c1, c2, c3⟩ := cH hbA hbB hb
  by_cases hs : (header.decode hbA).Signature = headerSignature
  swap
  · have hsB : ¬ (header.decode hbB).Signature = headerSignature := c1 ▸ hs
    rw [Read_of_block_error rA k hqA _ ta (readBlock_wrong_header _ ta hbA hA hs),
      Read_of_block_error rB k hqB _ tb (readBlock_wrong_header _ tb hbB hB hsB)]
    exact error_agree S rA rB _ ta tb _ hbuf hw hseq hr
  have hsB : (header.decode hbB).Signature = headerSignature := c1 ▸ hs
  rcases readFull_agree S ta tb (0 + 12) 8 hr with
    ⟨e, tA2, tB2, p, hA2, hB2, hr2⟩ | ⟨dbA, dbB, ta2, tb2, hA2, hB2, hdb, hr2⟩
  · rw [Read_of_block_error rA k hqA e tA2 (readBlock_pointer_error _ ta tA2 hbA e hA hs hA2),
      Read_of_block_error rB k hqB e tB2 (readBlock_pointer_error _ tb tB2 hbB e hB hsB hB2)]
    exact error_agree S rA rB e tA2 tB2 p hbuf hw hseq hr2
  have heq : ta2 = tb2 := readersAgree_eq S ta2 tb2 (0 + 12 + 8) hS hr2
  subst heq
  obtain ⟨d1, d2⟩ := cD hbA hbB dbA dbB ta tb ta2 ta2 hA hB hA2 hB2
    (by rw [Nat.zero_add] at hdb; exact hdb)
  by_cases hd : (datagramPointerHeader.decode dbA).Signature = datagramPointerHeaderSignature
  swap
  · have hdB : ¬ (datagramPointerHeader.decode dbB).Signature
        = datagramPointerHeaderSignature := d1 ▸ hd
    rw [Read_of_block_error rA k hqA _ ta2 (readBlock_wrong_pointer _ ta ta2 hbA dbA hA hs hA2 hd),
      Read_of_block_error rB k hqB _ ta2
        (readBlock_wrong_pointer _ tb ta2 hbB dbB hB hsB hB2 hdB)]
    exact error_agree S rA rB _ ta2 ta2 0 hbuf hw hseq (readersAgree_refl S ta2 0)
  have hdB : (datagramPointerHeader.decode dbB).Signature = datagramPointerHeaderSignature :=
    d1 ▸ hd
  rw [Read_of_headers rA k hbA dbA ta ta2 hqA hA hs hA2 hd,
    Read_of_headers rB k hbB dbB tb ta2 hqB hB hsB hB2 hdB, ← c2, ← c3, ← d2]
  rcases readTail (header.decode hbA).HeaderLen (header.decode hbA).BlockLen
      (fixLength (datagramPointerHeader.decode dbA)).Length ta2 with ⟨e | ⟨dg, thl, pl⟩, t5⟩
  · simp only [mkBlock]
    exact error_agree S rA rB e t5 t5 0 hbuf hw hseq (readersAgree_refl S t5 0)
  · simp only [mkBlock]
    exact ReadsAgree_of_eq S _ _
      (copyAndServe_same rA rB k _ _ t5 hbuf hw hseq rfl rfl rfl)

theorem fixLength_Length (d : datagramPointerHeader) :
    (fixLength d).Length = if d.Length = 0x8c then 0x3c else d.Length := by
  unfold fixLength
  by_cases h : d.Length = 0x8c
  · rw [if_pos h, if_pos h]
  · rw [if_neg h, if_neg h]

theorem header_fields_agree (S : List Nat) (hbA hbB : List Byte)
    (hb : bytesAgree S 0 hbA hbB = true)
    (hS : ∀ i, i ∈ [0, 1, 2, 3, 4, 5, 8, 9] → (0 + i) ∉ S) :
    (header.decode hbA).Signature = (header.decode hbB).Signature
    ∧ (header.decode hbA).HeaderLen = (header.decode hbB).HeaderLen
    ∧ (header.decode hbA).BlockLen = (header.decode hbB).BlockLen := by
  have g0 := bytesAgree_getD S hbA hbB 0 0 hb (hS 0 (by decide))
  have g1 := bytesAgree_getD S hbA hbB 0 (0 + 1) hb (hS 1 (by decide))
  have g2 := bytesAgree_getD S hbA hbB 0 (0 + 2) hb (hS 2 (by decide))
  have g3 := bytesAgree_getD S hbA hbB 0 (0 + 3) hb (hS 3 (by decide))
  have g4 := bytesAgree_getD S hbA hbB 0 4 hb (hS 4 (by decide))
  have g5 := bytesAgree_getD S hbA hbB 0 (4 + 1) hb (hS 5 (by decide))
  have g8 := bytesAgree_getD S hbA hbB 0 8 hb (hS 8 (by decide))
  have g9 := bytesAgree_getD S hbA hbB 0 (8 + 1) hb (hS 9 (by decide))
  refine ⟨?_, ?_, ?_⟩
  · show uint32At hbA 0 = uint32At hbB 0
    unfold uint32At
    rw [g0, g1, g2, g3]
  · show uint16At hbA 4 = uint16At hbB 4
    unfold uint16At
    rw [g4, g5]
  · show uint16At hbA 8 = uint16At hbB 8
    unfold uint16At
    rw [g8, g9]

theorem pointer_signature_agree (S : List Nat) (dbA dbB : List Byte)
    (hb : bytesAgree S 12 dbA dbB = true)
    (hS : ∀ i, i ∈ [0, 1, 2, 3] → (12 + i) ∉ S) :
    (datagramPointerHeader.decode dbA).Signature
      = (datagramPointerHeader.decode dbB).Signature := by
  have g0 := bytesAgree_getD S dbA dbB 12 0 hb (hS 0 (by decide))
  have g1 := bytesAgree_getD S dbA dbB 12 (0 + 1) hb (hS 1 (by decide))
  have g2 := bytesAgree_getD S dbA dbB 12 (0 + 2) hb (hS 2 (by decide))
  have g3 := bytesAgree_getD S dbA dbB 12 (0 + 3) hb (hS 3 (by decide))
  show uint32At dbA 0 = uint32At dbB 0
  unfold uint32At
  rw [g0, g1, g2, g3]

theorem pointer_length_agree (S : List Nat) (dbA dbB : List Byte)
    (hb : bytesAgree S 12 dbA dbB = true)
    (hS : ∀ i, i ∈ [4, 5] → (12 + i) ∉ S) :
    (datagramPointerHeader.decode dbA).Length = (datagramPointerHeader.decode dbB).Length := by
  have g4 := bytesAgree_getD S dbA dbB 12 4 hb (hS 4 (by decide))
  have g5 := bytesAgree_getD S dbA dbB 12 (4 + 1) hb (hS 5 (by decide))
  show uint16At dbA 4 = uint16At dbB 4
  unfold uint16At
  rw [g4, g5]

/-- C19: the result of `Read` does not depend on the NTH SequenceNum (stream bytes 6-7), the
NTH NdpIndex (bytes 10-11) or the NDP NextNdpIndex (bytes 18-19).  For two wrappers with the
same queue whose inbound transports deliver the same events, chunk sizes and errors and
hold the same bytes everywhere except possibly at those six stream positions, `Read`
returns the same bytes and the same error (or panics in both), leaves the same queue,
and leaves transports that again agree outside those positions. -/
theorem Read_ignores_sequence_and_indices (rA rB : NcmWrapper) (k : Nat)
    (hbuf : rA.buf = rB.buf) (hw : rA.targetWriter = rB.targetWriter)
    (hseq : rA.sequenceNum = rB.sequenceNum)
    (h : readersAgree [6, 7, 10, 11, 18, 19] 0 rA.targetReader rB.targetReader = true) :
    (rA.Read k).1 = (rB.Read k).1
    ∧ (rA.Read k).2.buf = (rB.Read k).2.buf
    ∧ ∃ p, readersAgree [6, 7, 10, 11, 18, 19] p
        (rA.Read k).2.targetReader (rB.Read k).2.targetReader = true := by
  have hg := Read_agree_general [6, 7, 10, 11, 18, 19] rA rB k hbuf hw hseq (by decide) h
    (fun hbA hbB hb => header_fields_agree _ hbA hbB hb (by decide))
    (fun hbA hbB dbA dbB ta tb ta2 tb2 _ _ _ _ hdb => by
      refine ⟨pointer_signature_agree _ dbA dbB hdb (by decide), ?_⟩
      rw [fixLength_Length, fixLength_Length,
        pointer_length_agree _ dbA dbB hdb (by decide)])
  exact ⟨hg.1, hg.2.1, hg.2.2.2.2⟩

theorem Read_ignores_sequence_and_indices_witness :
    readersAgree [6, 7, 10, 11, 18, 19] 0
      [Event.data [0x4E, 0x43, 0x4D, 0x48, 12, 0, 0, 0, 34, 0, 12, 0,
        0x4E, 0x43, 0x4D, 0x30, 16, 0, 0, 0, 30, 0, 4, 0, 0, 0, 0, 0, 0, 0, 1, 2, 3, 4]]
      [Event.data [0x4E, 0x43, 0x4D, 0x48, 12, 0, 7, 9, 34, 0, 99, 1,
        0x4E, 0x43, 0x4D, 0x30, 16, 0, 50, 2, 30, 0, 4, 0, 0, 0, 0, 0, 0, 0, 1, 2, 3, 4]] = true
    ∧ ((NcmWrapper.mk [Event.data [0x4E, 0x43, 0x4D, 0x48, 12, 0, 0, 0, 34, 0, 12, 0,
          0x4E, 0x43, 0x4D, 0x30, 16, 0, 0, 0, 30, 0, 4, 0, 0, 0, 0, 0, 0, 0, 1, 2, 3, 4]]
        ⟨[], []⟩ [] 0).Read 4).1
      = ((NcmWrapper.mk [Event.data [0x4E, 0x43, 0x4D, 0x48, 12, 0, 7, 9, 34, 0, 99, 1,
          0x4E, 0x43, 0x4D, 0x30, 16, 0, 50, 2, 30, 0, 4, 0, 0, 0, 0, 0, 0, 0, 1, 2, 3, 4]]
        ⟨[], []⟩ [] 0).Read 4).1 :=
  ⟨by decide,
    (Read_ignores_sequence_and_indices
      (NcmWrapper.mk [Event.data [0x4E, 0x43, 0x4D, 0x48, 12, 0, 0, 0, 34, 0, 12, 0,
          0x4E, 0x43, 0x4D, 0x30, 16, 0, 0, 0, 30, 0, 4, 0, 0, 0, 0, 0, 0, 0, 1, 2, 3, 4]]
        ⟨[], []⟩ [] 0)
      (NcmWrapper.mk [Event.data [0x4E, 0x43, 0x4D, 0x48, 12, 0, 7, 9, 34, 0, 99, 1,
          0x4E, 0x43, 0x4D, 0x30, 16, 0, 50, 2, 30, 0, 4, 0, 0, 0, 0, 0, 0, 0, 1, 2, 3, 4]]
        ⟨[], []⟩ [] 0) 4 rfl rfl rfl (by decide)).1⟩

/-! ## The length fix-up -/

theorem uint16At_append_right (a b : List Byte) (n i : Nat) (ha : a.length = n) :
    uint16At (a ++ b) (n + i) = uint16At b i := by
  subst ha
  unfold uint16At
  rw [List.getD_append_right _ _ _ _ (Nat.le_add_right _ _),
    List.getD_append_right _ _ _ _ (by omega)]
  rw [Nat.add_sub_cancel_left, show a.length + i + 1 - a.length = i + 1 by omega]

theorem uint16At_append_left (a b : List Byte) (i : Nat) (hi : i + 1 < a.length) :
    uint16At (a ++ b) i = uint16At a i := by
  unfold uint16At
  rw [List.getD_append _ _ _ _ (by omega), List.getD_append _ _ _ _ hi]

/-- The NDP Length field read by `binary.Read` is the 16-bit value at stream position 16. -/
theorem pointer_length_of_stream (t ta ta2 : Reader) (hb db : List Byte)
    (h1 : readFull t 12 = (Except.ok hb, ta)) (h2 : readFull ta 8 = (Except.ok db, ta2)) :
    (datagramPointerHeader.decode db).Length = uint16At (streamBytes t) 16 := by
  have hl1 := readFull_length _ _ _ _ h1
  have hl2 := readFull_length _ _ _ _ h2
  rw [readFull_stream _ _ _ _ h1, readFull_stream _ _ _ _ h2]
  show uint16At db 4 = uint16At (hb ++ (db ++ streamBytes ta2)) (12 + 4)
  rw [uint16At_append_right hb _ 12 4 hl1, uint16At_append_left db _ 4 (by omega)]

/-- C12: the length fix-up.  Take two wrappers with the same queue whose inbound transports
deliver the same events, chunk sizes and errors and hold the same bytes everywhere except
at stream positions 16-17, the NDP Length field, which reads `0x8c` on one and `0x3c` on the
other.  Then `Read` returns the same bytes and the same error (or panics in both), leaves
the same queue, consumes the same number of transport bytes, and leaves transports that
again agree outside those two positions. -/
theorem Read_quirk_normalization (rA rB : NcmWrapper) (k : Nat)
    (hbuf : rA.buf = rB.buf) (hw : rA.targetWriter = rB.targetWriter)
    (hseq : rA.sequenceNum = rB.sequenceNum)
    (h : readersAgree [16, 17] 0 rA.targetReader rB.targetReader = true)
    (hA : uint16At (streamBytes rA.targetReader) 16 = 0x8c)
    (hB : uint16At (streamBytes rB.targetReader) 16 = 0x3c) :
    (rA.Read k).1 = (rB.Read k).1
    ∧ (rA.Read k).2.buf = (rB.Read k).2.buf
    ∧ (streamBytes rA.targetReader).length - (streamBytes (rA.Read k).2.targetReader).length
        = (streamBytes rB.targetReader).length
          - (streamBytes (rB.Read k).2.targetReader).length
    ∧ ∃ p, readersAgree [16, 17] p
        (rA.Read k).2.targetReader (rB.Read k).2.targetReader = true := by
  have hg := Read_agree_general [16, 17] rA rB k hbuf hw hseq (by decide) h
    (fun hbA hbB hb => header_fields_agree _ hbA hbB hb (by decide))
    (fun hbA hbB dbA dbB ta tb ta2 tb2 h1A h1B h2A h2B hdb => by
      refine ⟨pointer_signature_agree _ dbA dbB hdb (by decide), ?_⟩
      rw [fixLength_Length, fixLength_Length,
        pointer_length_of_stream _ ta ta2 hbA dbA h1A h2A,
        pointer_length_of_stream _ tb tb2 hbB dbB h1B h2B, hA, hB]
      decide)
  obtain ⟨h1, h2, -, -, p, hp⟩ := hg
  refine ⟨h1, h2, ?_, p, hp⟩
  rw [readersAgree_stream_length _ _ _ _ h, readersAgree_stream_length _ _ _ _ hp]

theorem Read_quirk_normalization_witness :
    readersAgree [16, 17] 0
      [Event.data [0x4E, 0x43, 0x4D, 0x48, 12, 0, 0, 0, 0x4E, 0, 12, 0,
        0x4E, 0x43, 0x4D, 0x30, 0x8c, 0, 0, 0], Event.data [100, 101]]
      [Event.data [0x4E, 0x43, 0x4D, 0x48, 12, 0, 0, 0, 0x4E, 0, 12, 0,
        0x4E, 0x43, 0x4D, 0x30, 0x3c, 0, 0, 0], Event.data [100, 101]] = true
    ∧ uint16At (streamBytes [Event.data [0x4E, 0x43, 0x4D, 0x48, 12, 0, 0, 0, 0x4E, 0, 12, 0,
        0x4E, 0x43, 0x4D, 0x30, 0x8c, 0, 0, 0], Event.data [100, 101]]) 16 = 0x8c
    ∧ ((NcmWrapper.mk [Event.data [0x4E, 0x43, 0x4D, 0x48, 12, 0, 0, 0, 0x4E, 0, 12, 0,
          0x4E, 0x43, 0x4D, 0x30, 0x8c, 0, 0, 0], Event.data [100, 101]]
        ⟨[], []⟩ [] 0).Read 4).1
      = ((NcmWrapper.mk [Event.data [0x4E, 0x43, 0x4D, 0x48, 12, 0, 0, 0, 0x4E, 0, 12, 0,
          0x4E, 0x43, 0x4D, 0x30, 0x3c, 0, 0, 0], Event.data [100, 101]]
        ⟨[], []⟩ [] 0).Read 4).1 :=
  ⟨by decide, by decide,
    (Read_quirk_normalization
      (NcmWrapper.mk [Event.data [0x4E, 0x43, 0x4D, 0x48, 12, 0, 0, 0, 0x4E, 0, 12, 0,
          0x4E, 0x43, 0x4D, 0x30, 0x8c, 0, 0, 0], Event.data [100, 101]]
        ⟨[], []⟩ [] 0)
      (NcmWrapper.mk [Event.data [0x4E, 0x43, 0x4D, 0x48, 12, 0, 0, 0, 0x4E, 0, 12, 0,
          0x4E, 0x43, 0x4D, 0x30, 0x3c, 0, 0, 0], Event.data [100, 101]]
        ⟨[], []⟩ [] 0) 4 rfl rfl rfl (by decide) (by decide) (by decide)).1⟩

/-! ## The two library loops are iterations of the transport's `Read` -/

/-- The loop of `io.ReadAtLeast`: one `Read` of the `need` missing bytes; an error ends the
loop (`io.EOF` after at least one byte becoming `io.ErrUnexpectedEOF`), a full delivery ends it
with success, and a short delivery is followed by another turn of the loop. -/
theorem readLoop_eq_Read (t : Reader) (got : List Byte) (need : Nat) :
    readLoop t got need =
      match t.Read need with
      | ((bs, some e), t2) =>
        (Except.error (if e = Err.EOF ∧ got ++ bs ≠ [] then Err.ErrUnexpectedEOF else e), t2)
      | ((bs, none), t2) =>
        if bs.length = need then (Except.ok (got ++ bs), t2)
        else readLoop t2 (got ++ bs) (need - bs.length) := by
  rcases t with _ | ⟨ev, rest⟩
  · by_cases hg : got = []
    · simp [readLoop, Reader.Read, hg]
    · simp [readLoop, Reader.Read, hg]
  · cases ev with
    | fail e => simp [readLoop, Reader.Read]
    | data cs =>
      by_cases h1 : need < cs.length
      · have hlen : (cs.take need).length = need := by
          rw [List.length_take]; omega
        simp only [readLoop, Reader.Read, if_pos h1, hlen, if_true]
      · by_cases h2 : need = cs.length
        · simp only [readLoop, Reader.Read, if_neg h1, if_pos h2, if_pos h2.symm]
        · have h3 : ¬ cs.length = need := fun h => h2 h.symm
          simp only [readLoop, Reader.Read, if_neg h1, if_neg h2, if_neg h3]

/-- The loop of `io.CopyN(io.Discard, r, n)`: one `Read` of at most the `need` bytes still to
skip; an error ends the copy, and so does the last byte. -/
theorem discardLoop_eq_Read (t : Reader) (got need : Nat) :
    discardLoop t got need =
      match t.Read need with
      | ((bs, some e), t2) => ((got + bs.length, some e), t2)
      | ((bs, none), t2) =>
        if bs.length = need then ((got + need, none), t2)
        else discardLoop t2 (got + bs.length) (need - bs.length) := by
  rcases t with _ | ⟨ev, rest⟩
  · simp [discardLoop, Reader.Read]
  · cases ev with
    | fail e => simp [discardLoop, Reader.Read]
    | data cs =>
      by_cases h1 : need < cs.length
      · have hlen : (cs.take need).length = need := by
          rw [List.length_take]; omega
        simp only [discardLoop, Reader.Read, if_pos h1, hlen, if_true]
      · by_cases h2 : need = cs.length
        · simp only [discardLoop, Reader.Read, if_neg h1, if_pos h2, if_pos h2.symm]
        · have h3 : ¬ cs.length = need := fun h => h2 h.symm
          simp only [discardLoop, Reader.Read, if_neg h1, if_neg h2, if_neg h3]

end Ncm
